import Mathlib

/-!
Verification development for the `file-viewer` repository: a shallow
embedding of the document/cursor/viewport/search/selection/templater core
(`src/main.rs`, `src/commands/mod.rs`, `src/command_spec.rs`) together with
theorems settling the specification claims.

Modelling conventions:
* Rust byte strings (`&[u8]`, byte-indexed `&str`) are `List Nat` with each
  element a `u8` value; columns are byte offsets, exactly as in the source.
* The scroll offset is a Rust `u16`; its arithmetic is modelled with
  explicit wrapping (`% 65536`), i.e. release-mode Rust semantics (debug
  builds would panic where the model wraps).
* Loops are modelled by structural recursion, using an explicit fuel
  argument when the Rust loop variable does not decrease structurally; the
  fuel chosen at each call site makes the model exactly equal to the loop.
-/

namespace FileViewer

/-- Bytes are modelled as natural numbers (`u8` values). -/
abbrev Byte := Nat

/-- The modulus of `u16` arithmetic: `App.scroll` is a `u16` in the source. -/
def U16 : Nat := 65536

/-- Wrapping `u16` addition (Rust release semantics of `a + b` on `u16`). -/
def wadd (a b : Nat) : Nat := (a + b) % U16

/-- Wrapping `u16` subtraction (Rust release semantics of `a - b` on `u16`). -/
def wsub (a b : Nat) : Nat := (a % U16 + (U16 - b % U16)) % U16

/-- `is_keyword` from `src/main.rs`: ASCII alphanumeric or underscore. -/
def is_keyword (b : Byte) : Bool :=
  (48 ≤ b && b ≤ 57) || (65 ≤ b && b ≤ 90) || (97 ≤ b && b ≤ 122) || b == 95

/-- Rust `u8::is_ascii_whitespace`: space, tab, newline, form feed, carriage
return. -/
def is_ascii_ws (b : Byte) : Bool :=
  b == 32 || b == 9 || b == 10 || b == 12 || b == 13

/-- Helper turning an ASCII string literal into its byte list (used only to
state concrete examples; all example strings are ASCII, where `Char.toNat`
is the UTF-8 byte). -/
def strBytes (s : String) : List Byte := s.data.map Char.toNat

/-! ## Document loading (`Document::new`, Rust `str::lines`) -/

/-- Rust `str::split_inclusive('\n')` at byte level: splits after every
newline byte, keeping the newline with the preceding piece; a last piece
without a newline is kept; the empty string yields no pieces. -/
def splitInclusiveNL : List Byte → List (List Byte)
  | [] => []
  | b :: rest =>
    if b == 10 then [b] :: splitInclusiveNL rest
    else
      match splitInclusiveNL rest with
      | [] => [[b]]
      | p :: ps => (b :: p) :: ps

/-- The per-piece map of Rust `str::lines`: strip one trailing `\n`, and if
one was stripped, also one trailing `\r` before it. -/
def stripLineEnd (l : List Byte) : List Byte :=
  if l.getLast? == some 10 then
    if l.dropLast.getLast? == some 13 then l.dropLast.dropLast else l.dropLast
  else l

/-- Rust `str::lines` at byte level, as used by `Document::new`. -/
def rustLines (content : List Byte) : List (List Byte) :=
  (splitInclusiveNL content).map stripLineEnd

/-- `Document` from `src/main.rs`: the base lines. -/
structure Document where
  lines : List (List Byte)
deriving DecidableEq

/-- `Document::new`: split the loaded content into newline-stripped lines. -/
def Document.new (content : List Byte) : Document :=
  { lines := rustLines content }

/-- `OverlayItem` from `src/main.rs`. -/
structure OverlayItem where
  after_line : Nat
  content : List (List Byte)
deriving DecidableEq

/-- The inner `while` of `Document::compose`: take the maximal run of
overlays anchored exactly at line `i` (in order), returning their content
lines and the remaining overlays. -/
def takeMatching (i : Nat) : List OverlayItem → List (List Byte) × List OverlayItem
  | [] => ([], [])
  | o :: rest =>
    if o.after_line == i then
      let pr := takeMatching i rest
      (o.content ++ pr.1, pr.2)
    else ([], o :: rest)

/-- The main loop of `Document::compose`: base line `i`, then overlays
anchored at `i`; after the last base line, all remaining overlays. -/
def composeAux (overlays : List OverlayItem) (i : Nat) :
    List (List Byte) → List (List Byte)
  | [] => (overlays.map OverlayItem.content).flatten
  | l :: rest =>
    let pr := takeMatching i overlays
    l :: (pr.1 ++ composeAux pr.2 (i + 1) rest)

/-- `Document::compose`: the composed view of base lines and overlays. -/
def Document.compose (d : Document) (overlays : List OverlayItem) :
    List (List Byte) :=
  composeAux overlays 0 d.lines

/-! ## App state -/

/-- `Mode` from `src/main.rs` (command/search buffers as byte lists). -/
inductive Mode where
  | Normal
  | Visual
  | VisualLine
  | Command (buf : List Byte)
  | Search (buf : List Byte)
  | Help
deriving DecidableEq

/-- `App` from `src/main.rs`. `scroll` is a `u16` in the source; the model
keeps it as a `Nat` and applies wrapping at every write, mirroring the
source's casts. -/
structure App where
  doc : Document
  overlays : List OverlayItem
  cursor_x : Nat
  cursor_y : Nat
  scroll : Nat
  mode : Mode
  search_query : Option (List Byte)
  search_hits : List (Nat × Nat)
  current_hit : Option Nat
  selection_start : Option (Nat × Nat)
deriving DecidableEq

/-- `App::new`. -/
def App.new (content : List Byte) : App :=
  { doc := Document.new content
    overlays := []
    cursor_x := 0
    cursor_y := 0
    scroll := 0
    mode := Mode.Normal
    search_query := none
    search_hits := []
    current_hit := none
    selection_start := none }

/-- `App::display_lines`. -/
def App.display_lines (a : App) : List (List Byte) :=
  a.doc.compose a.overlays

/-- `App::line_len`: byte length of a composed-view row, `0` out of range. -/
def App.line_len (a : App) (line : Nat) : Nat :=
  (a.display_lines.getD line []).length

/-! ## Cursor/viewport primitives -/

/-- `App::move_left`. -/
def App.move_left (a : App) : App :=
  if 0 < a.cursor_x then { a with cursor_x := a.cursor_x - 1 } else a

/-- `App::move_right`. -/
def App.move_right (a : App) : App :=
  if a.cursor_x < a.line_len a.cursor_y then
    { a with cursor_x := a.cursor_x + 1 }
  else a

/-- `App::move_down`: step the cursor one row down if possible, scrolling so
the cursor stays the bottom visible row, and re-clamping the column. -/
def App.move_down (a : App) (height : Nat) : App :=
  if a.cursor_y + 1 < a.display_lines.length then
    let cy := a.cursor_y + 1
    let scroll2 :=
      if wadd a.scroll height ≤ cy % U16 then wadd (wsub (cy % U16) height) 1
      else a.scroll
    let len := a.line_len cy
    { a with
      cursor_y := cy
      scroll := scroll2
      cursor_x := if len < a.cursor_x then len else a.cursor_x }
  else a

/-- `App::move_up`. -/
def App.move_up (a : App) : App :=
  if 0 < a.cursor_y then
    let cy := a.cursor_y - 1
    let scroll2 := if cy % U16 < a.scroll then cy % U16 else a.scroll
    let len := a.line_len cy
    { a with
      cursor_y := cy
      scroll := scroll2
      cursor_x := if len < a.cursor_x then len else a.cursor_x }
  else a

/-- `App::ensure_visible`: re-clamp `scroll` against the cursor row. -/
def App.ensure_visible (a : App) (height : Nat) : App :=
  let s1 :=
    if wadd a.scroll height ≤ a.cursor_y % U16 then
      wadd (wsub (a.cursor_y % U16) height) 1
    else a.scroll
  let s2 := if a.cursor_y % U16 < s1 then a.cursor_y % U16 else s1
  { a with scroll := s2 }

/-- `App::char_at`. -/
def App.char_at (a : App) (y x : Nat) : Option Byte :=
  (a.display_lines.get? y).bind fun l => l.get? x

/-- `App::char_before`. -/
def App.char_before (a : App) (y x : Nat) : Option Byte :=
  if 0 < x then (a.display_lines.get? y).bind fun l => l.get? (x - 1)
  else if 0 < y then (a.display_lines.get? (y - 1)).bind fun l => l.getLast?
  else none

/-! ## Word/paragraph motion -/

/-- Fuel-indexed inner `while` of `App::skip_forward`: advance `x` while it
is in bounds and the predicate holds. The fuel chosen in `skipInLine` makes
this exactly the Rust loop. -/
def skipInLineFuel (pred : Byte → Bool) (bytes : List Byte) :
    Nat → Nat → Nat
  | 0, x => x
  | fuel + 1, x =>
    if x < bytes.length ∧ pred (bytes.getD x 0) then
      skipInLineFuel pred bytes fuel (x + 1)
    else x

/-- The inner byte-skipping loop of `App::skip_forward`. -/
def skipInLine (pred : Byte → Bool) (bytes : List Byte) (x : Nat) : Nat :=
  skipInLineFuel pred bytes (bytes.length - x) x

/-- Fuel-indexed outer loop of `App::skip_forward`. -/
def skipForwardFuel (pred : Byte → Bool) (lines : List (List Byte)) :
    Nat → Nat → Nat → Nat × Nat
  | 0, y, x => (y, x)
  | fuel + 1, y, x =>
    if y < lines.length then
      let bytes := lines.getD y []
      let x2 := skipInLine pred bytes x
      if x2 < bytes.length then (y, x2)
      else if y + 1 = lines.length then (y, x2)
      else skipForwardFuel pred lines fuel (y + 1) 0
    else (y, x)

/-- `App::skip_forward` (as a function of the composed lines). -/
def skip_forward (pred : Byte → Bool) (lines : List (List Byte))
    (y x : Nat) : Nat × Nat :=
  skipForwardFuel pred lines (lines.length - y) y x

/-- The backward in-line loop of `App::skip_backward`: decrement `x` while
the byte before it satisfies the predicate. -/
def skipInLineBack (pred : Byte → Bool) (bytes : List Byte) : Nat → Nat
  | 0 => 0
  | x + 1 =>
    if pred (bytes.getD x 0) then skipInLineBack pred bytes x else x + 1

/-- `App::skip_backward` (as a function of the composed lines). -/
def skip_backward (pred : Byte → Bool) (lines : List (List Byte)) :
    Nat → Nat → Nat × Nat
  | 0, x =>
    if x = 0 then (0, 0)
    else (0, skipInLineBack pred (lines.getD 0 []) x)
  | y + 1, x =>
    if x = 0 then
      let len2 := (lines.getD y []).length
      if len2 = 0 then skip_backward pred lines y 0
      else (y, skipInLineBack pred (lines.getD y []) len2)
    else (y + 1, skipInLineBack pred (lines.getD (y + 1) []) x)

/-- The unclamped target of `App::move_word_forward`: skip the class run
under the cursor, then any whitespace. -/
def wordForwardTarget (a : App) : Nat × Nat :=
  let lines := a.display_lines
  let p1 :=
    match a.char_at a.cursor_y a.cursor_x with
    | some c =>
      if is_ascii_ws c then skip_forward is_ascii_ws lines a.cursor_y a.cursor_x
      else if is_keyword c then skip_forward is_keyword lines a.cursor_y a.cursor_x
      else
        skip_forward (fun b => !is_keyword b && !is_ascii_ws b) lines
          a.cursor_y a.cursor_x
    | none => (a.cursor_y, a.cursor_x)
  skip_forward is_ascii_ws lines p1.1 p1.2

/-- `App::move_word_forward`: move to the word target, clamping row and
column. -/
def App.move_word_forward (a : App) : App :=
  let cy := min (wordForwardTarget a).1 (a.display_lines.length - 1)
  { a with cursor_y := cy, cursor_x := min (wordForwardTarget a).2 (a.line_len cy) }

/-- The target of `App::move_word_backward` (only consulted away from the
document start): skip whitespace backward, then the class run before the
position. -/
def wordBackwardTarget (a : App) : Nat × Nat :=
  let lines := a.display_lines
  let p1 := skip_backward is_ascii_ws lines a.cursor_y a.cursor_x
  match a.char_before p1.1 p1.2 with
  | some c =>
    if is_keyword c then skip_backward is_keyword lines p1.1 p1.2
    else skip_backward (fun b => !is_keyword b && !is_ascii_ws b) lines p1.1 p1.2
  | none => p1

/-- `App::move_word_backward`. -/
def App.move_word_backward (a : App) : App :=
  if a.cursor_y = 0 ∧ a.cursor_x = 0 then a
  else
    { a with
      cursor_y := (wordBackwardTarget a).1
      cursor_x := (wordBackwardTarget a).2 }

/-- `line.text().trim().is_empty()` for the paragraph-boundary test. Rust
trims Unicode whitespace; for ASCII content (all inputs considered here)
that coincides with every byte being ASCII whitespace. -/
def trimIsEmpty (l : List Byte) : Bool := l.all is_ascii_ws

/-- `App::move_paragraph_down`: jump to the next blank row after the cursor,
or the last row. -/
def App.move_paragraph_down (a : App) : App :=
  let lines := a.display_lines
  match (lines.enum.drop (a.cursor_y + 1)).find? (fun p => trimIsEmpty p.2) with
  | some p => { a with cursor_y := p.1, cursor_x := 0 }
  | none => { a with cursor_y := lines.length - 1, cursor_x := 0 }

/-- `App::move_paragraph_up`. -/
def App.move_paragraph_up (a : App) : App :=
  if a.cursor_y = 0 then a
  else
    let lines := a.display_lines
    match (lines.enum.take a.cursor_y).reverse.find? (fun p => trimIsEmpty p.2) with
    | some p => { a with cursor_y := p.1, cursor_x := 0 }
    | none => { a with cursor_y := 0, cursor_x := 0 }

/-- `App::half_page_down`: `height / 2` repetitions of `move_down`. -/
def App.half_page_down (a : App) (height : Nat) : App :=
  (List.range (height / 2)).foldl (fun s _ => s.move_down height) a

/-- `App::half_page_up`. -/
def App.half_page_up (a : App) (height : Nat) : App :=
  (List.range (height / 2)).foldl (fun s _ => s.move_up) a

/-- `App::cursor_top`: jump to the top visible row, re-clamping the column. -/
def App.cursor_top (a : App) : App :=
  let cy := a.scroll
  let len := a.line_len cy
  { a with cursor_y := cy, cursor_x := if len < a.cursor_x then len else a.cursor_x }

/-- `App::cursor_middle`. The source computes
`(scroll + height / 2).min(len as u16 - 1)` in `u16`; on an empty composed
view `len as u16 - 1` underflows (panic in debug, wrap in release — the
model wraps). -/
def App.cursor_middle (a : App) (height : Nat) : App :=
  let mid := min (wadd a.scroll (height / 2)) (wsub (a.display_lines.length % U16) 1)
  let len := a.line_len mid
  { a with cursor_y := mid, cursor_x := if len < a.cursor_x then len else a.cursor_x }

/-- `App::cursor_bottom` (same `u16` underflow caveat as `cursor_middle`). -/
def App.cursor_bottom (a : App) (height : Nat) : App :=
  let bottom :=
    min (wsub (wadd a.scroll height) 1) (wsub (a.display_lines.length % U16) 1)
  let len := a.line_len bottom
  { a with cursor_y := bottom, cursor_x := if len < a.cursor_x then len else a.cursor_x }

/-- `App::goto_first_line`. -/
def App.goto_first_line (a : App) : App :=
  { a with cursor_y := 0, cursor_x := 0 }

/-- `App::goto_last_line`. -/
def App.goto_last_line (a : App) : App :=
  if a.display_lines.isEmpty then a
  else { a with cursor_y := a.display_lines.length - 1, cursor_x := 0 }

/-! ## Search -/

/-- Fuel-indexed scan of one row for the literal query `q`: positions of
non-overlapping occurrences, each scan resuming `q.length` bytes after a
match, exactly as the `while let Some(pos) = line[start..].find(&query)`
loop of `App::set_search_query`.  Only reached with `q ≠ []` (the source
guards the empty query; Rust's loop would not terminate on it). -/
def scanSuffixFuel (q : List Byte) : Nat → List Byte → List Nat
  | 0, _ => []
  | _ + 1, [] => []
  | fuel + 1, b :: rest =>
    if q.isPrefixOf (b :: rest) then
      0 :: (scanSuffixFuel q fuel (rest.drop (q.length - 1))).map (· + q.length)
    else (scanSuffixFuel q fuel rest).map (· + 1)

/-- All match positions of `q` in one row. -/
def scanSuffix (q s : List Byte) : List Nat :=
  scanSuffixFuel q s.length s

/-- The hit list built by `App::set_search_query`: every row scanned in
order, hits recorded as `(row, col)`. -/
def scanHits (lines : List (List Byte)) (q : List Byte) : List (Nat × Nat) :=
  lines.enum.flatMap fun p => (scanSuffix q p.2).map fun x => (p.1, x)

/-- `App::set_search_query`. -/
def App.set_search_query (a : App) (query : List Byte) : App :=
  if query.isEmpty then
    { a with search_query := none, search_hits := [], current_hit := none }
  else
    let hits := scanHits a.display_lines query
    if hits.isEmpty then
      { a with search_query := some query, search_hits := hits, current_hit := none }
    else
      let p := hits.getD 0 (0, 0)
      { a with
        search_query := some query
        search_hits := hits
        current_hit := some 0
        cursor_y := p.1
        cursor_x := p.2 }

/-- `App::clear_search`. -/
def App.clear_search (a : App) : App :=
  { a with search_query := none, search_hits := [], current_hit := none }

/-- `App::next_hit`: no-op on an empty hit list; otherwise advance the
current-hit index cyclically, jump the cursor there, and `ensure_visible`. -/
def App.next_hit (a : App) (height : Nat) : App :=
  if a.search_hits.isEmpty then a
  else
    let nxt :=
      match a.current_hit with
      | some i => (i + 1) % a.search_hits.length
      | none => 0
    let p := a.search_hits.getD nxt (0, 0)
    ({ a with current_hit := some nxt, cursor_y := p.1, cursor_x := p.2
      } : App).ensure_visible height

/-- `App::prev_hit`. -/
def App.prev_hit (a : App) (height : Nat) : App :=
  if a.search_hits.isEmpty then a
  else
    let prv :=
      match a.current_hit with
      | some (Nat.succ i) => i
      | _ => a.search_hits.length - 1
    let p := a.search_hits.getD prv (0, 0)
    ({ a with current_hit := some prv, cursor_y := p.1, cursor_x := p.2
      } : App).ensure_visible height

/-! ## The event layer (motion intents as dispatched by `EditorCommand::run`
and the search keymap) -/

/-- The discrete motion/search intents of the event layer, each carrying the
state change `EditorCommand::run` (resp. the search keymap) performs,
including the trailing `ensure_visible` where the event layer adds one. -/
inductive Intent where
  | MoveLeft
  | MoveDown
  | MoveUp
  | MoveRight
  | MoveWordForward
  | MoveWordBackward
  | MoveParagraphUp
  | MoveParagraphDown
  | HalfPageUp
  | HalfPageDown
  | CursorTop
  | CursorMiddle
  | CursorBottom
  | GotoFirstLine
  | GotoLastLine
  | NextHit
  | PrevHit
  | SearchSubmit (query : List Byte)
  | ClearSearch
deriving DecidableEq

/-- Dispatch one intent exactly as `EditorCommand::run` does (for `gg`, the
resolved `goto_first_line`; for `SearchSubmit`/`ClearSearch`, the search
keymap's handler). -/
def dispatch (i : Intent) (height : Nat) (a : App) : App :=
  match i with
  | .MoveLeft => a.move_left
  | .MoveDown => a.move_down height
  | .MoveUp => a.move_up
  | .MoveRight => a.move_right
  | .MoveWordForward => a.move_word_forward.ensure_visible height
  | .MoveWordBackward => a.move_word_backward.ensure_visible height
  | .MoveParagraphUp => a.move_paragraph_up.ensure_visible height
  | .MoveParagraphDown => a.move_paragraph_down.ensure_visible height
  | .HalfPageUp => a.half_page_up height
  | .HalfPageDown => a.half_page_down height
  | .CursorTop => a.cursor_top.ensure_visible height
  | .CursorMiddle => (a.cursor_middle height).ensure_visible height
  | .CursorBottom => (a.cursor_bottom height).ensure_visible height
  | .GotoFirstLine => a.goto_first_line.ensure_visible height
  | .GotoLastLine => a.goto_last_line.ensure_visible height
  | .NextHit => a.next_hit height
  | .PrevHit => a.prev_hit height
  | .SearchSubmit q =>
    ({ a.set_search_query q with mode := Mode.Normal } : App).ensure_visible height
  | .ClearSearch => { a.clear_search with mode := Mode.Normal }

/-- Run a sequence of intents from a state. -/
def runIntents (a : App) (height : Nat) (l : List Intent) : App :=
  l.foldl (fun s i => dispatch i height s) a

/-- The freshly-loaded state for a given document and overlay list
(generalising `App::new`, which always starts with no overlays). -/
def initialApp (doc : Document) (overlays : List OverlayItem) : App :=
  { App.new [] with doc := doc, overlays := overlays }

/-! ## Selection normalization (`EditorCommand::run`, `highlight_line`) -/

/-- The endpoint ordering `start <= end` used by the source: Rust's derived
lexicographic order on `(usize, usize)`. -/
def pairLe (a b : Nat × Nat) : Prop :=
  a.1 < b.1 ∨ (a.1 = b.1 ∧ a.2 ≤ b.2)

instance (a b : Nat × Nat) : Decidable (pairLe a b) := by
  unfold pairLe; infer_instance

/-- The normalization `if start <= end { (start, end) } else { (end, start) }`
used both by `EditorCommand::run` (CommandSubmit) and `highlight_line`. -/
def sel_normalize (anchor cur : Nat × Nat) : (Nat × Nat) × (Nat × Nat) :=
  if pairLe anchor cur then (anchor, cur) else (cur, anchor)

/-! ## Command templater (`EditorCommand::run`, CommandSubmit branch)

Rust `String`s are sequences of `char`s; the templater is modelled over
`List Char` (for valid UTF-8 the byte-level substring search of
`str::replace` coincides with `char`-level search, UTF-8 being
self-synchronizing). -/

/-- Rust `char::is_whitespace`: the Unicode `White_Space` code points. -/
def rust_char_ws (c : Char) : Bool :=
  (9 ≤ c.toNat && c.toNat ≤ 13) || c.toNat == 32 || c.toNat == 133 ||
  c.toNat == 160 || c.toNat == 5760 || (8192 ≤ c.toNat && c.toNat ≤ 8202) ||
  c.toNat == 8232 || c.toNat == 8233 || c.toNat == 8239 || c.toNat == 8287 ||
  c.toNat == 12288

/-- Fuel-indexed core of Rust `str::replace` for a non-empty pattern
`p :: ps`: scan left to right, replacing each non-overlapping occurrence
and resuming after it. The fuel chosen in `rust_replace` makes this exactly
the Rust scan. -/
def replaceCoreFuel (p : Char) (ps v : List Char) : Nat → List Char → List Char
  | 0, s => s
  | _ + 1, [] => []
  | fuel + 1, c :: rest =>
    if (p :: ps).isPrefixOf (c :: rest) then
      v ++ replaceCoreFuel p ps v fuel (rest.drop ps.length)
    else c :: replaceCoreFuel p ps v fuel rest

/-- Rust `str::replace s pat v` over char lists (for the empty pattern Rust
inserts `v` at every char boundary; the templater only ever uses the seven
non-empty placeholder patterns). -/
def rust_replace (s pat v : List Char) : List Char :=
  match pat with
  | [] => v ++ s.flatMap fun c => c :: v
  | p :: ps => replaceCoreFuel p ps v s.length s

/-- Accumulator loop for Rust `str::split_whitespace`: tokens are maximal
runs of non-whitespace; no empty tokens are produced. -/
def splitWsGo (cur : List Char) : List Char → List (List Char)
  | [] => if cur.isEmpty then [] else [cur.reverse]
  | c :: rest =>
    if rust_char_ws c then
      if cur.isEmpty then splitWsGo [] rest
      else cur.reverse :: splitWsGo [] rest
    else splitWsGo (c :: cur) rest

/-- Rust `str::split_whitespace` collected to a list. -/
def split_whitespace (s : List Char) : List (List Char) :=
  splitWsGo [] s

/-- Decimal digit character. -/
def digitChar (d : Nat) : Char := Char.ofNat (48 + d)

/-- Fuel-indexed standard decimal rendering (Rust `usize::to_string`). -/
def natCharsFuel : Nat → Nat → List Char
  | 0, _ => []
  | fuel + 1, n =>
    if n < 10 then [digitChar n]
    else natCharsFuel fuel (n / 10) ++ [digitChar (n % 10)]

/-- Decimal rendering of a natural number as chars. -/
def natChars (n : Nat) : List Char := natCharsFuel (n + 1) n

/-- The seven placeholder tokens. -/
def tokLine : List Char := "{line}".data

def tokCol : List Char := "{col}".data

def tokArgs : List Char := "{args}".data

def tokStartLine : List Char := "{start_line}".data

def tokStartCol : List Char := "{start_col}".data

def tokEndLine : List Char := "{end_line}".data

def tokEndCol : List Char := "{end_col}".data

def tokenList : List (List Char) :=
  [tokLine, tokCol, tokArgs, tokStartLine, tokStartCol, tokEndLine, tokEndCol]

/-- The seven `(pattern, replacement)` pairs in the order the CommandSubmit
branch applies them: cursor position 1-based, the free-text args, and the
1-based normalized selection bounds (both ends the cursor position when no
selection is active). -/
def substPairs (cy cx : Nat) (args : List Char) (sel : Option (Nat × Nat)) :
    List (List Char × List Char) :=
  let se :=
    match sel with
    | some start => sel_normalize start (cy, cx)
    | none => ((cy, cx), (cy, cx))
  [(tokLine, natChars (cy + 1)),
   (tokCol, natChars (cx + 1)),
   (tokArgs, args),
   (tokStartLine, natChars (se.1.1 + 1)),
   (tokStartCol, natChars (se.1.2 + 1)),
   (tokEndLine, natChars (se.2.1 + 1)),
   (tokEndCol, natChars (se.2.2 + 1))]

/-- Apply a list of `(pattern, replacement)` substitutions left to right. -/
def applySubsts (tpl : List Char) (l : List (List Char × List Char)) : List Char :=
  l.foldl (fun s p => rust_replace s p.1 p.2) tpl

/-- The resolved token list of a template: substitute all placeholders in
the source's order, then split on whitespace runs. -/
def resolve_template (tpl : List Char) (cy cx : Nat) (args : List Char)
    (sel : Option (Nat × Nat)) : List (List Char) :=
  split_whitespace (applySubsts tpl (substPairs cy cx args sel))

/-- The dispatch decision of the CommandSubmit branch: `parts.split_first()`
— no command is spawned when the token list is empty, else the first token
is the program and the rest its arguments. -/
def dispatch_command (tpl : List Char) (cy cx : Nat) (args : List Char)
    (sel : Option (Nat × Nat)) : Option (List Char × List (List Char)) :=
  match resolve_template tpl cy cx args sel with
  | [] => none
  | prog :: rest => some (prog, rest)

/-- Strict lexicographic order on `(row, col)` pairs. -/
def pairLt (a b : Nat × Nat) : Prop :=
  a.1 < b.1 ∨ (a.1 = b.1 ∧ a.2 < b.2)

instance (a b : Nat × Nat) : Decidable (pairLt a b) := by
  unfold pairLt; infer_instance

/-- Proof-side recursive restatement of `scanHits` with an explicit first
row index. -/
def scanHitsFrom (q : List Byte) (y : Nat) : List (List Byte) → List (Nat × Nat)
  | [] => []
  | l :: ls => ((scanSuffix q l).map fun x => (y, x)) ++ scanHitsFrom q (y + 1) ls

/-- Template representation parts. -/
inductive TplPart where
  | chunk (text : List Char)
  | token (t : List Char)
deriving DecidableEq

/-- The text of a part. -/
def TplPart.flat : TplPart → List Char
  | .chunk text => text
  | .token t => t

/-- Flatten a representation back into the template string. -/
def flattenParts (r : List TplPart) : List Char :=
  (r.map TplPart.flat).flatten

/-- Validity of one part: chunks have no opening brace, tokens are among
the seven placeholders. -/
def PartOk : TplPart → Prop
  | .chunk text => ('{' : Char) ∉ text
  | .token t => t ∈ tokenList

/-- Validity of a representation. -/
def RepOk (r : List TplPart) : Prop := ∀ part ∈ r, PartOk part

instance : DecidablePred PartOk := fun p => by
  cases p <;> simp only [PartOk] <;> infer_instance

instance (r : List TplPart) : Decidable (RepOk r) := by
  unfold RepOk; infer_instance

/-- The action of one substitution on a part: a token equal to the pattern
becomes a chunk holding the replacement, everything else is unchanged. -/
def subPart (t v : List Char) : TplPart → TplPart
  | .chunk c => .chunk c
  | .token t2 => if t2 = t then .chunk v else .token t2

/-- Representation-level left fold of a substitution list. -/
def repFold (r : List TplPart) (l : List (List Char × List Char)) : List TplPart :=
  l.foldl (fun acc p => acc.map (subPart p.1 p.2)) r

/-- Length of the composed view. -/
def composedLen (a : App) : Nat := a.display_lines.length

/-- The cursor part of the invariant: `col ≤ len(row_text)` and
`row < composed_view.len()`. -/
def CursorOK (a : App) : Prop :=
  a.cursor_x ≤ a.line_len a.cursor_y ∧ a.cursor_y < composedLen a

/-- The viewport part: `scroll ≤ row < scroll + height` and
`scroll ≤ composed_view.len() - 1`. -/
def ViewportOK (height : Nat) (a : App) : Prop :=
  a.scroll ≤ a.cursor_y ∧ a.cursor_y < a.scroll + height ∧
    a.scroll ≤ composedLen a - 1

/-- Auxiliary invariant: recorded search hits are valid positions. -/
def HitsOK (a : App) : Prop :=
  ∀ p ∈ a.search_hits,
    p.1 < composedLen a ∧ p.2 ≤ (a.display_lines.getD p.1 []).length

/-- Side conditions of the amended claim: positive height, non-empty
composed view, and `u16` arithmetic never truncating. -/
def DocOK (height : Nat) (a : App) : Prop :=
  1 ≤ height ∧ 1 ≤ composedLen a ∧ composedLen a + height ≤ U16

/-- The full invariant. -/
def StateOK (height : Nat) (a : App) : Prop :=
  DocOK height a ∧ CursorOK a ∧ ViewportOK height a ∧ HitsOK a

instance (a : App) : Decidable (CursorOK a) := by unfold CursorOK; infer_instance

instance (height : Nat) (a : App) : Decidable (ViewportOK height a) := by
  unfold ViewportOK; infer_instance

instance (a : App) : Decidable (HitsOK a) := by unfold HitsOK; infer_instance

instance (height : Nat) (a : App) : Decidable (DocOK height a) := by
  unfold DocOK; infer_instance

instance (height : Nat) (a : App) : Decidable (StateOK height a) := by
  unfold StateOK; infer_instance

/-- Cursor-jump shape: the operation only moved the cursor, to a valid
position of the unchanged composed view. -/
def JumpShape (a b : App) : Prop :=
  ∃ y x, b = ({ a with cursor_y := y, cursor_x := x } : App) ∧
    y < composedLen a ∧ x ≤ (a.display_lines.getD y []).length

/-! ## Theorems -/

/-- Claim C9: selection normalization is symmetric in its arguments, the
result is ordered lexicographically by `(row, col)` and consists of the two
endpoints; in particular anchor `(2,5)` with cursor `(0,1)` produces
`start (0,1)`, `end (2,5)` regardless of argument order. -/
theorem sel_normalize_symmetric :
    (∀ anchor cur : Nat × Nat,
        sel_normalize anchor cur = sel_normalize cur anchor ∧
        pairLe (sel_normalize anchor cur).1 (sel_normalize anchor cur).2 ∧
        (sel_normalize anchor cur = (anchor, cur) ∨
          sel_normalize anchor cur = (cur, anchor))) ∧
    sel_normalize (2, 5) (0, 1) = ((0, 1), (2, 5)) ∧
    sel_normalize (0, 1) (2, 5) = ((0, 1), (2, 5)) := by
  refine ⟨fun anchor cur => ?_, by decide, by decide⟩
  obtain ⟨ar, ac⟩ := anchor
  obtain ⟨cr, cc⟩ := cur
  simp only [sel_normalize, pairLe]
  by_cases h1 : (ar, ac).1 < (cr, cc).1 ∨ ((ar, ac).1 = (cr, cc).1 ∧ (ar, ac).2 ≤ (cr, cc).2) <;>
    by_cases h2 : (cr, cc).1 < (ar, ac).1 ∨ ((cr, cc).1 = (ar, ac).1 ∧ (cr, cc).2 ≤ (ar, ac).2) <;>
    simp only [h1, h2, if_pos, if_neg, if_true, if_false] <;>
    simp only [Prod.fst, Prod.snd] at h1 h2
  · have har : ar = cr := by omega
    have hac : ac = cc := by omega
    subst har; subst hac
    simp [h1]
  · simp [h1]
  · simp [h2]
  · exact absurd (by omega : (ar, ac).1 < (cr, cc).1 ∨ ((ar, ac).1 = (cr, cc).1 ∧ (ar, ac).2 ≤ (cr, cc).2)) h1

/-- Claim C5: command resolution substitutes the placeholders with 1-based
cursor/selection coordinates and the free-text args, then splits on runs of
whitespace into program and arguments, dispatching nothing exactly when the
token list is empty; in particular `"echo {line} {col} {args}"` at cursor
`(0,0)` with args `"hello"` resolves to `["echo","1","1","hello"]`. -/
theorem template_resolution :
    (∀ (tpl : List Char) (cy cx : Nat) (args : List Char)
        (sel : Option (Nat × Nat)),
        dispatch_command tpl cy cx args sel = none ↔
          resolve_template tpl cy cx args sel = []) ∧
    resolve_template "echo {line} {col} {args}".data 0 0 "hello".data none =
      ["echo".data, "1".data, "1".data, "hello".data] := by
  constructor
  · intro tpl cy cx args sel
    unfold dispatch_command
    cases h : resolve_template tpl cy cx args sel <;> simp
  · decide

/-- Folding a constant step over `List.range n` is `n`-fold iteration. -/
theorem foldl_range_iterate {α : Type} (f : α → α) (a : α) (n : Nat) :
    (List.range n).foldl (fun s _ => f s) a = f^[n] a := by
  induction n with
  | zero => rfl
  | succ m ih =>
    rw [List.range_succ, List.foldl_append, ih, Function.iterate_succ_apply']
    rfl

/-- Claim C7: `half_page_down height` is exactly `height / 2` iterations of
the single-step `move_down height` (and `half_page_up` of `move_up`), so
boundary clamping silently truncates the distance; on a 4-line document
with height 10, `half_page_down` from row 0 lands on row 3, not row 5. -/
theorem half_page_is_iteration :
    (∀ (a : App) (height : Nat),
        a.half_page_down height = (fun s : App => s.move_down height)^[height / 2] a ∧
        a.half_page_up height = (fun s : App => s.move_up)^[height / 2] a) ∧
    ((App.new (strBytes "l1\nl2\nl3\nl4")).half_page_down 10).cursor_y = 3 ∧
    ((App.new (strBytes "l1\nl2\nl3\nl4")).half_page_down 10).cursor_y ≠ 5 := by
  refine ⟨fun a height => ⟨?_, ?_⟩, by decide, by decide⟩
  · exact foldl_range_iterate (fun s : App => s.move_down height) a (height / 2)
  · exact foldl_range_iterate (fun s : App => s.move_up) a (height / 2)

/-- Claim C4 counterexample: on the single line `"foo bar_baz 42!!"` the
third `move_word_forward` from column 0 lands at column 14 (the first byte
of the `!!` run), not at column 15 as the claim states. -/
theorem word_motion_cex :
    ¬ ((App.new (strBytes "foo bar_baz 42!!")).move_word_forward.move_word_forward.move_word_forward.cursor_x
        = 15) := by decide

/-- Claim C4 (amended): on the single line `"foo bar_baz 42!!"` with the
cursor at `(0,0)`, three applications of `move_word_forward` visit columns
`0 → 4 → 12 → 14`, landing on the first byte of each of the runs
`bar_baz`, `42`, `!!` in turn, the row staying 0. -/
theorem word_motion_sequence :
    (App.new (strBytes "foo bar_baz 42!!")).cursor_x = 0 ∧
    (App.new (strBytes "foo bar_baz 42!!")).cursor_y = 0 ∧
    (App.new (strBytes "foo bar_baz 42!!")).move_word_forward.cursor_x = 4 ∧
    (App.new (strBytes "foo bar_baz 42!!")).move_word_forward.move_word_forward.cursor_x = 12 ∧
    (App.new (strBytes "foo bar_baz 42!!")).move_word_forward.move_word_forward.move_word_forward.cursor_x = 14 ∧
    (App.new (strBytes "foo bar_baz 42!!")).move_word_forward.move_word_forward.move_word_forward.cursor_y = 0 := by
  decide

/-- Claim C2: the totality claim fails on the empty-document state. The
source's `cursor_middle`/`cursor_bottom` compute `len() as u16 - 1`, which
on an empty composed view underflows (panics in debug builds; wraps to
65535 in release), after which the cursor lands on out-of-bounds rows 5
resp. 9 for height 10 instead of staying at row 0. -/
theorem cursor_middle_empty_underflow :
    (App.new []).display_lines = [] ∧
    ((App.new []).cursor_middle 10).cursor_y = 5 ∧
    ((App.new []).cursor_bottom 10).cursor_y = 9 := by decide

/-! ### Document loading and trailing newlines (claim C10) -/

theorem splitInclusiveNL_ne_nil {s : List Byte} (h : s ≠ []) :
    splitInclusiveNL s ≠ [] := by
  match s with
  | [] => exact absurd rfl h
  | b :: rest =>
    simp only [splitInclusiveNL]
    by_cases hb : b == 10
    · simp [hb]
    · simp only [hb, if_false, Bool.false_eq_true]
      cases splitInclusiveNL rest <;> simp

theorem splitInclusiveNL_first_newline {a : List Byte} (b : List Byte)
    (ha : 10 ∉ a) : splitInclusiveNL (a ++ 10 :: b) = (a ++ [10]) :: splitInclusiveNL b := by
  induction a with
  | nil => simp [splitInclusiveNL]
  | cons c a' ih =>
    have hc : c ≠ 10 := fun h => ha (h ▸ List.mem_cons_self c a')
    have ha' : 10 ∉ a' := fun h => ha (List.mem_cons_of_mem c h)
    simp only [List.cons_append, splitInclusiveNL, beq_iff_eq, hc, if_false]
    rw [List.append_eq, ih ha']

theorem splitInclusiveNL_no_newline {a : List Byte} (ha : 10 ∉ a) (hne : a ≠ []) :
    splitInclusiveNL a = [a] := by
  induction a with
  | nil => exact absurd rfl hne
  | cons c a' ih =>
    have hc : c ≠ 10 := fun h => ha (h ▸ List.mem_cons_self c a')
    have ha' : 10 ∉ a' := fun h => ha (List.mem_cons_of_mem c h)
    simp only [splitInclusiveNL, beq_iff_eq, hc, if_false]
    cases haz : a' with
    | nil => simp [haz, splitInclusiveNL]
    | cons d a2 =>
      rw [← haz, ih ha' (by simp [haz])]

theorem mem_split_first {x : Byte} {s : List Byte} (h : x ∈ s) :
    ∃ a b, s = a ++ x :: b ∧ x ∉ a := by
  induction s with
  | nil => cases h
  | cons c rest ih =>
    by_cases hc : c = x
    · exact ⟨[], rest, by simp [hc], by simp⟩
    · have hx : x ∈ rest := by
        cases List.mem_cons.mp h with
        | inl h0 => exact absurd h0.symm hc
        | inr h0 => exact h0
      obtain ⟨a, b, hab, hna⟩ := ih hx
      refine ⟨c :: a, b, by simp [hab], ?_⟩
      intro hx2
      rcases List.mem_cons.mp hx2 with h0 | h0
      · exact hc h0.symm
      · exact hna h0

theorem rustLines_append_newline_aux :
    ∀ (n : Nat) (s : List Byte), s.length ≤ n → s ≠ [] →
      s.getLast? ≠ some 10 → s.getLast? ≠ some 13 →
      rustLines (s ++ [10]) = rustLines s := by
  intro n
  induction n with
  | zero => intro s hlen hne _ _; cases s <;> simp_all
  | succ m ih =>
    intro s hlen hne h10 h13
    by_cases hmem : 10 ∈ s
    · obtain ⟨a, b, hab, hna⟩ := mem_split_first hmem
      cases hb : b with
      | nil =>
        exfalso
        apply h10
        rw [hab, hb, List.getLast?_concat]
      | cons d b' =>
        subst hab
        have hbne : b ≠ [] := by simp [hb]
        have hlast : (a ++ 10 :: b).getLast? = b.getLast? := by
          rw [List.getLast?_append]
          cases b with
          | nil => exact absurd rfl hbne
          | cons e b2 =>
            have : (e :: b2).getLast? ≠ none := by
              cases h : (e :: b2).getLast? with
              | none => simp [List.getLast?] at h
              | some v => simp
            cases h : (e :: b2).getLast? with
            | none => exact absurd h this
            | some v => simp [h, Option.or]
        have h10b : b.getLast? ≠ some 10 := hlast ▸ h10
        have h13b : b.getLast? ≠ some 13 := hlast ▸ h13
        have hlenb : b.length ≤ m := by
          have := List.length_append a (10 :: b) ▸ hlen
          simp at this ⊢
          omega
        have hrec := ih b hlenb hbne h10b h13b
        have hsplit1 : splitInclusiveNL ((a ++ 10 :: b) ++ [10]) =
            (a ++ [10]) :: splitInclusiveNL (b ++ [10]) := by
          rw [List.append_assoc, List.cons_append]
          exact splitInclusiveNL_first_newline (b ++ [10]) hna
        have hsplit2 : splitInclusiveNL (a ++ 10 :: b) =
            (a ++ [10]) :: splitInclusiveNL b :=
          splitInclusiveNL_first_newline b hna
        unfold rustLines at hrec ⊢
        rw [hsplit1, hsplit2, List.map_cons, List.map_cons, hrec]
    · have hsplitL : splitInclusiveNL (s ++ [10]) = [s ++ [10]] := by
        have := splitInclusiveNL_first_newline (a := s) [] hmem
        simpa using this
      have hsplitR : splitInclusiveNL s = [s] := splitInclusiveNL_no_newline hmem hne
      unfold rustLines
      rw [hsplitL, hsplitR]
      simp only [List.map_cons, List.map_nil]
      have hstripL : stripLineEnd (s ++ [10]) = s := by
        unfold stripLineEnd
        rw [List.getLast?_concat, List.dropLast_concat]
        simp only [beq_self_eq_true, if_true]
        have : (s.getLast? == some 13) = false := by
          cases h : s.getLast? with
          | none => rfl
          | some v =>
            by_cases hv : v = 13
            · exact absurd (hv ▸ h) h13
            · simp [hv]
        simp [this]
      have hstripR : stripLineEnd s = s := by
        unfold stripLineEnd
        have : (s.getLast? == some 10) = false := by
          cases h : s.getLast? with
          | none => rfl
          | some v =>
            by_cases hv : v = 10
            · exact absurd (hv ▸ h) h10
            · simp [hv]
        simp [this]
      rw [hstripL, hstripR]

/-- Claim C10 counterexample: at the concrete content `""`, appending a
final newline changes the line sequence — `Document::new ""` has zero lines
while `Document::new "\n"` has one (empty) line. -/
theorem doc_trailing_newline_cex :
    (Document.new (strBytes "" ++ [10])).lines ≠ (Document.new (strBytes "")).lines := by
  decide

/-- Claim C10 (amended): for every non-empty content byte string not ending
in a newline or carriage-return byte, appending a final newline leaves
`Document::new`'s line sequence unchanged; `Document::new ""` produces zero
lines, and the overlay-free empty-content app has an empty composed view
with the cursor at `(0, 0)`. -/
theorem doc_trailing_newline :
    (∀ s : List Byte, s ≠ [] → s.getLast? ≠ some 10 → s.getLast? ≠ some 13 →
        (Document.new (s ++ [10])).lines = (Document.new s).lines) ∧
    (Document.new []).lines = [] ∧
    (App.new []).display_lines = [] ∧
    (App.new []).cursor_y = 0 ∧ (App.new []).cursor_x = 0 := by
  refine ⟨fun s hne h10 h13 => ?_, by decide, by decide, by decide, by decide⟩
  show rustLines (s ++ [10]) = rustLines s
  exact rustLines_append_newline_aux s.length s le_rfl hne h10 h13

/-- Witness for `doc_trailing_newline` at the concrete content `"hello"`. -/
theorem doc_trailing_newline_witness :
    strBytes "hello" ≠ [] ∧ (strBytes "hello").getLast? ≠ some 10 ∧
    (strBytes "hello").getLast? ≠ some 13 ∧
    (Document.new (strBytes "hello" ++ [10])).lines = (Document.new (strBytes "hello")).lines :=
  ⟨by decide, by decide, by decide,
    doc_trailing_newline.1 (strBytes "hello") (by decide) (by decide) (by decide)⟩

/-! ### Search scan properties (claim C3) -/

theorem scanHits_eq_from (lines : List (List Byte)) (q : List Byte) :
    scanHits lines q = scanHitsFrom q 0 lines := by
  show (List.enumFrom 0 lines).flatMap _ = _
  suffices h : ∀ (ls : List (List Byte)) (y : Nat),
      (List.enumFrom y ls).flatMap
        (fun p => (scanSuffix q p.2).map fun x => (p.1, x)) = scanHitsFrom q y ls by
    exact h lines 0
  intro ls
  induction ls with
  | nil => intro y; rfl
  | cons l ls ih =>
    intro y
    rw [List.enumFrom_cons, List.flatMap_cons, scanHitsFrom, ih (y + 1)]

theorem scanSuffixFuel_props (q : List Byte) (hq : q ≠ []) :
    ∀ (fuel : Nat) (s : List Byte),
      List.Pairwise (· < ·) (scanSuffixFuel q fuel s) ∧
      ∀ p ∈ scanSuffixFuel q fuel s,
        p + q.length ≤ s.length ∧ q.isPrefixOf (s.drop p) = true := by
  have hq1 : 1 ≤ q.length := by
    cases q with
    | nil => exact absurd rfl hq
    | cons c cs => simp
  intro fuel
  induction fuel with
  | zero => intro s; simp [scanSuffixFuel]
  | succ m ih =>
    intro s
    cases s with
    | nil => simp [scanSuffixFuel]
    | cons b rest =>
      by_cases hpre : q.isPrefixOf (b :: rest)
      · have hlen : q.length ≤ rest.length + 1 := by
          have := (List.isPrefixOf_iff_prefix.mp hpre).length_le
          simpa using this
        obtain ⟨ihp, ihm⟩ := ih (rest.drop (q.length - 1))
        constructor
        · rw [scanSuffixFuel, if_pos hpre, List.pairwise_cons]
          constructor
          · intro x hx
            rw [List.mem_map] at hx
            obtain ⟨x0, _, hx0⟩ := hx
            omega
          · rw [List.pairwise_map]
            exact ihp.imp (by omega)
        · intro p hp
          rw [scanSuffixFuel, if_pos hpre, List.mem_cons] at hp
          rcases hp with hp | hp
          · subst hp
            exact ⟨by simpa using hlen, by simpa using hpre⟩
          · rw [List.mem_map] at hp
            obtain ⟨p0, hp0, hpe⟩ := hp
            obtain ⟨hb, hocc⟩ := ihm p0 hp0
            rw [List.length_drop] at hb
            refine ⟨by simp; omega, ?_⟩
            subst hpe
            have hdrop : (b :: rest).drop (p0 + q.length) = (rest.drop (q.length - 1)).drop p0 := by
              have h1 : p0 + q.length = (p0 + (q.length - 1)) + 1 := by omega
              rw [h1, List.drop_succ_cons, List.drop_drop]
              congr 1
              omega
            rw [hdrop]
            exact hocc
      · obtain ⟨ihp, ihm⟩ := ih rest
        constructor
        · rw [scanSuffixFuel, if_neg hpre, List.pairwise_map]
          exact ihp.imp (by omega)
        · intro p hp
          rw [scanSuffixFuel, if_neg hpre, List.mem_map] at hp
          obtain ⟨p0, hp0, hpe⟩ := hp
          obtain ⟨hb, hocc⟩ := ihm p0 hp0
          subst hpe
          exact ⟨by simp; omega, by rw [List.drop_succ_cons]; exact hocc⟩

theorem scanSuffix_props (q : List Byte) (hq : q ≠ []) (s : List Byte) :
    List.Pairwise (· < ·) (scanSuffix q s) ∧
    ∀ p ∈ scanSuffix q s, p + q.length ≤ s.length ∧ q.isPrefixOf (s.drop p) = true :=
  scanSuffixFuel_props q hq s.length s

theorem scanHitsFrom_props (q : List Byte) (hq : q ≠ []) :
    ∀ (ls : List (List Byte)) (y : Nat),
      List.Pairwise pairLt (scanHitsFrom q y ls) ∧
      ∀ p ∈ scanHitsFrom q y ls,
        y ≤ p.1 ∧ p.1 - y < ls.length ∧
        p.2 + q.length ≤ (ls.getD (p.1 - y) []).length ∧
        q.isPrefixOf ((ls.getD (p.1 - y) []).drop p.2) = true := by
  intro ls
  induction ls with
  | nil => intro y; simp [scanHitsFrom]
  | cons l ls ih =>
    intro y
    obtain ⟨hsp, hsm⟩ := scanSuffix_props q hq l
    obtain ⟨ihp, ihm⟩ := ih (y + 1)
    constructor
    · rw [scanHitsFrom, List.pairwise_append]
      refine ⟨?_, ihp, ?_⟩
      · rw [List.pairwise_map]
        exact hsp.imp fun h => Or.inr ⟨rfl, h⟩
      · intro p1 hp1 p2 hp2
        rw [List.mem_map] at hp1
        obtain ⟨x1, _, hx1⟩ := hp1
        have h2 := (ihm p2 hp2).1
        subst hx1
        exact Or.inl (by omega)
    · intro p hp
      rw [scanHitsFrom, List.mem_append] at hp
      rcases hp with hp | hp
      · rw [List.mem_map] at hp
        obtain ⟨x, hx, hxe⟩ := hp
        obtain ⟨hb, hocc⟩ := hsm x hx
        subst hxe
        simp only [Nat.sub_self, List.getD_cons_zero, List.length_cons]
        exact ⟨le_rfl, by omega, hb, hocc⟩
      · obtain ⟨hy, hlt, hb, hocc⟩ := ihm p hp
        have hsub : p.1 - y = (p.1 - (y + 1)) + 1 := by omega
        rw [hsub]
        exact ⟨by omega, by simpa using hlt, by simpa using hb, by simpa using hocc⟩

theorem scanHits_props (lines : List (List Byte)) (q : List Byte) (hq : q ≠ []) :
    List.Pairwise pairLt (scanHits lines q) ∧
    ∀ p ∈ scanHits lines q,
      p.1 < lines.length ∧
      p.2 + q.length ≤ (lines.getD p.1 []).length ∧
      q.isPrefixOf ((lines.getD p.1 []).drop p.2) = true := by
  rw [scanHits_eq_from]
  obtain ⟨hp, hm⟩ := scanHitsFrom_props q hq lines 0
  refine ⟨hp, fun p hmem => ?_⟩
  obtain ⟨_, h1, h2, h3⟩ := hm p hmem
  simp only [Nat.sub_zero] at h1 h2 h3
  exact ⟨h1, h2, h3⟩

/-- Claim C3: `set_search_query` with an empty query clears all search
state; with a non-empty query it records all the scan's hits (each a true
occurrence of `q`, non-overlapping by construction of the resuming scan) in
strict row-major, column-ascending order, sets the current hit to index 0
and moves the cursor there when any hit exists, and otherwise clears the
current hit leaving the cursor unchanged; on document `["ab ab", "ab"]`
with query `"ab"` the hit list is exactly `[(0,0),(0,3),(1,0)]`. -/
theorem search_query_behavior :
    (∀ (a : App) (q : List Byte),
      (q = [] →
        a.set_search_query q =
          { a with search_query := none, search_hits := [], current_hit := none }) ∧
      (q ≠ [] →
        (a.set_search_query q).search_query = some q ∧
        (a.set_search_query q).search_hits = scanHits a.display_lines q ∧
        List.Pairwise pairLt (scanHits a.display_lines q) ∧
        (∀ p ∈ scanHits a.display_lines q,
          p.1 < a.display_lines.length ∧
          p.2 + q.length ≤ (a.display_lines.getD p.1 []).length ∧
          q.isPrefixOf ((a.display_lines.getD p.1 []).drop p.2) = true) ∧
        (scanHits a.display_lines q = [] →
          (a.set_search_query q).current_hit = none ∧
          (a.set_search_query q).cursor_y = a.cursor_y ∧
          (a.set_search_query q).cursor_x = a.cursor_x) ∧
        (scanHits a.display_lines q ≠ [] →
          (a.set_search_query q).current_hit = some 0 ∧
          ((a.set_search_query q).cursor_y, (a.set_search_query q).cursor_x) =
            (scanHits a.display_lines q).getD 0 (0, 0)))) ∧
    ((App.new (strBytes "ab ab\nab")).set_search_query (strBytes "ab")).search_hits =
      [(0, 0), (0, 3), (1, 0)] := by
  refine ⟨fun a q => ⟨?_, ?_⟩, by decide⟩
  · intro hq
    subst hq
    rfl
  · intro hq
    have hqe : q.isEmpty = false := by
      cases q with
      | nil => exact absurd rfl hq
      | cons c cs => rfl
    obtain ⟨hpair, hmem⟩ := scanHits_props a.display_lines q hq
    by_cases hh : scanHits a.display_lines q = []
    · refine ⟨?_, ?_, hpair, hmem, fun _ => ⟨?_, ?_, ?_⟩, fun hne => absurd hh hne⟩ <;>
        simp [App.set_search_query, hqe, hh]
    · have hhe : (scanHits a.display_lines q).isEmpty = false := by
        cases h : scanHits a.display_lines q with
        | nil => exact absurd h hh
        | cons p ps => rfl
      refine ⟨?_, ?_, hpair, hmem, fun h0 => absurd h0 hh, fun _ => ⟨?_, ?_⟩⟩ <;>
        simp [App.set_search_query, hqe, hhe]

/-- Witness for `search_query_behavior` at the document `["ab ab", "ab"]`
and query `"ab"`: the hits are in strict lexicographic order, the current
hit becomes 0, and the cursor jumps to `(0,0)`. -/
theorem search_query_behavior_witness :
    strBytes "ab" ≠ [] ∧
    List.Pairwise pairLt
      (scanHits (App.new (strBytes "ab ab\nab")).display_lines (strBytes "ab")) ∧
    ((App.new (strBytes "ab ab\nab")).set_search_query (strBytes "ab")).current_hit = some 0 :=
  ⟨by decide,
    ((search_query_behavior.1 (App.new (strBytes "ab ab\nab")) (strBytes "ab")).2
      (by decide)).2.2.1,
    (((search_query_behavior.1 (App.new (strBytes "ab ab\nab")) (strBytes "ab")).2
      (by decide)).2.2.2.2.2 (by decide)).1⟩

/-! ### Cyclic hit navigation (claim C8) -/

/-- Claim C8: `next_hit`/`prev_hit` are complete no-ops on an empty hit
list; on a non-empty one they advance/retreat the current-hit index
cyclically modulo the hit count (wrapping in both directions), jump the
cursor to the selected hit, and re-clamp the viewport via
`ensure_visible`; concretely, with the three hits of the `"ab"` search,
`next_hit` from index 2 wraps the current hit back to index 0. -/
theorem hit_navigation :
    (∀ (a : App) (height : Nat),
      (a.search_hits = [] → a.next_hit height = a ∧ a.prev_hit height = a) ∧
      (a.search_hits ≠ [] →
        (∀ i, a.current_hit = some i →
          a.next_hit height =
            ({ a with
                current_hit := some ((i + 1) % a.search_hits.length)
                cursor_y := (a.search_hits.getD ((i + 1) % a.search_hits.length) (0, 0)).1
                cursor_x := (a.search_hits.getD ((i + 1) % a.search_hits.length) (0, 0)).2
              } : App).ensure_visible height) ∧
        (a.current_hit = none →
          a.next_hit height =
            ({ a with
                current_hit := some 0
                cursor_y := (a.search_hits.getD 0 (0, 0)).1
                cursor_x := (a.search_hits.getD 0 (0, 0)).2
              } : App).ensure_visible height) ∧
        (∀ i, a.current_hit = some (i + 1) →
          a.prev_hit height =
            ({ a with
                current_hit := some i
                cursor_y := (a.search_hits.getD i (0, 0)).1
                cursor_x := (a.search_hits.getD i (0, 0)).2
              } : App).ensure_visible height) ∧
        (a.current_hit = some 0 ∨ a.current_hit = none →
          a.prev_hit height =
            ({ a with
                current_hit := some (a.search_hits.length - 1)
                cursor_y := (a.search_hits.getD (a.search_hits.length - 1) (0, 0)).1
                cursor_x := (a.search_hits.getD (a.search_hits.length - 1) (0, 0)).2
              } : App).ensure_visible height))) ∧
    ((((App.new (strBytes "ab ab\nab")).set_search_query (strBytes "ab")).next_hit
          5).next_hit 5).current_hit = some 2 ∧
    (((((App.new (strBytes "ab ab\nab")).set_search_query (strBytes "ab")).next_hit
          5).next_hit 5).next_hit 5).current_hit = some 0 := by
  refine ⟨fun a height => ⟨?_, ?_⟩, by decide, by decide⟩
  · intro h
    constructor <;> simp [App.next_hit, App.prev_hit, h]
  · intro h
    have hhe : a.search_hits.isEmpty = false := by
      cases h0 : a.search_hits with
      | nil => exact absurd h0 h
      | cons p ps => rfl
    refine ⟨fun i hi => ?_, fun hi => ?_, fun i hi => ?_, fun hi => ?_⟩
    · simp [App.next_hit, hhe, hi]
    · simp [App.next_hit, hhe, hi]
    · simp [App.prev_hit, hhe, hi]
    · rcases hi with hi | hi <;> simp [App.prev_hit, hhe, hi]

/-- Witness for `hit_navigation`: on the concrete three-hit search state,
`next_hit` from current hit 2 wraps to hit 0 at position `(0,0)`. -/
theorem hit_navigation_witness :
    ((((App.new (strBytes "ab ab\nab")).set_search_query (strBytes "ab")).next_hit
        5).next_hit 5).search_hits ≠ [] ∧
    ((((App.new (strBytes "ab ab\nab")).set_search_query (strBytes "ab")).next_hit
        5).next_hit 5).next_hit 5 =
      (({ (((App.new (strBytes "ab ab\nab")).set_search_query (strBytes "ab")).next_hit
            5).next_hit 5 with
          current_hit := some 0, cursor_y := 0, cursor_x := 0 } : App).ensure_visible 5) := by
  refine ⟨by decide, ?_⟩
  have h := ((hit_navigation.1
      ((((App.new (strBytes "ab ab\nab")).set_search_query (strBytes "ab")).next_hit
        5).next_hit 5) 5).2 (by decide)).1 2 (by decide)
  simpa using h

/-! ### Substitution order independence (claim C6)

A template is viewed through a representation as a sequence of parts, each
either a chunk containing no `'{'` or one of the seven placeholder tokens;
a template admits such a representation exactly when each of its `'{'`
characters opens a placeholder occurrence. -/

theorem flattenParts_cons (p : TplPart) (r : List TplPart) :
    flattenParts (p :: r) = p.flat ++ flattenParts r := by
  simp [flattenParts]

theorem token_shape : ∀ t ∈ tokenList, t.head? = some '{' ∧ ('{' : Char) ∉ t.tail := by
  decide

theorem token_not_prefix :
    ∀ t1 ∈ tokenList, ∀ t2 ∈ tokenList, t1 ≠ t2 → ¬ t1 <+: t2 := by
  decide

theorem replaceCoreFuel_fuel (p : Char) (ps v : List Char) :
    ∀ (f1 : Nat) (s : List Char) (f2 : Nat), s.length ≤ f1 → s.length ≤ f2 →
      replaceCoreFuel p ps v f1 s = replaceCoreFuel p ps v f2 s := by
  intro f1
  induction f1 with
  | zero =>
    intro s f2 h1 _
    have hs : s = [] := by cases s <;> simp_all
    subst hs
    cases f2 <;> rfl
  | succ m ih =>
    intro s f2 h1 h2
    cases s with
    | nil => cases f2 <;> rfl
    | cons c rest =>
      cases f2 with
      | zero => simp at h2
      | succ m2 =>
        simp only [replaceCoreFuel]
        simp only [List.length_cons] at h1 h2
        by_cases hp : (p :: ps).isPrefixOf (c :: rest)
        · rw [if_pos hp, if_pos hp]
          congr 1
          apply ih
          · rw [List.length_drop]; omega
          · rw [List.length_drop]; omega
        · rw [if_neg hp, if_neg hp]
          congr 1
          apply ih <;> omega

theorem replace_chunk_pass (ps v : List Char) :
    ∀ (c s : List Char), ('{' : Char) ∉ c →
      rust_replace (c ++ s) ('{' :: ps) v = c ++ rust_replace s ('{' :: ps) v := by
  intro c
  induction c with
  | nil => intro s _; rfl
  | cons ch c' ih =>
    intro s hc
    have hch : ('{' : Char) ≠ ch := by
      intro h
      exact hc (h ▸ List.mem_cons_self ch c')
    have hc' : ('{' : Char) ∉ c' := fun h => hc (List.mem_cons_of_mem ch h)
    show replaceCoreFuel '{' ps v (ch :: (c' ++ s)).length (ch :: (c' ++ s)) =
      (ch :: c') ++ rust_replace s ('{' :: ps) v
    rw [List.length_cons]
    simp only [replaceCoreFuel]
    have hnp : ¬ ('{' :: ps).isPrefixOf (ch :: (c' ++ s)) := by
      intro h
      have := List.isPrefixOf_iff_prefix.mp h
      rcases this with ⟨t, ht⟩
      have : '{' = ch := by
        have := congrArg List.head? ht
        simpa using this
      exact hch this
    rw [if_neg hnp]
    show ch :: replaceCoreFuel '{' ps v (c' ++ s).length (c' ++ s) = _
    rw [show replaceCoreFuel '{' ps v (c' ++ s).length (c' ++ s) =
        rust_replace (c' ++ s) ('{' :: ps) v from rfl, ih s hc']
    rfl

theorem replace_token_hit (ts v : List Char) :
    ∀ s, rust_replace (('{' :: ts) ++ s) ('{' :: ts) v =
      v ++ rust_replace s ('{' :: ts) v := by
  intro s
  show replaceCoreFuel '{' ts v ('{' :: (ts ++ s)).length ('{' :: (ts ++ s)) = _
  rw [List.length_cons]
  simp only [replaceCoreFuel]
  have hp : ('{' :: ts).isPrefixOf ('{' :: (ts ++ s)) := by
    rw [List.isPrefixOf_iff_prefix]
    exact ⟨s, by simp⟩
  rw [if_pos hp]
  have hdrop : (ts ++ s).drop ts.length = s := List.drop_left ts s
  rw [hdrop]
  congr 1
  exact replaceCoreFuel_fuel '{' ts v (ts ++ s).length s s.length
    (by rw [List.length_append]; omega) le_rfl

theorem replace_token_miss (t t2 v : List Char) (ht : t ∈ tokenList)
    (ht2 : t2 ∈ tokenList) (hne : t2 ≠ t) :
    ∀ s, rust_replace (t2 ++ s) t v = t2 ++ rust_replace s t v := by
  obtain ⟨hh, htl⟩ := token_shape t ht
  obtain ⟨hh2, htl2⟩ := token_shape t2 ht2
  obtain ⟨ts, hts⟩ : ∃ ts, t = '{' :: ts := by
    cases t with
    | nil => simp at hh
    | cons c cs => simp at hh; exact ⟨cs, by rw [hh]⟩
  obtain ⟨ts2, hts2⟩ : ∃ ts2, t2 = '{' :: ts2 := by
    cases t2 with
    | nil => simp at hh2
    | cons c cs => simp at hh2; exact ⟨cs, by rw [hh2]⟩
  intro s
  subst hts
  subst hts2
  simp only [List.tail_cons] at htl htl2
  show replaceCoreFuel '{' ts v ('{' :: (ts2 ++ s)).length ('{' :: (ts2 ++ s)) = _
  rw [List.length_cons]
  simp only [replaceCoreFuel]
  have hnp : ¬ ('{' :: ts).isPrefixOf ('{' :: (ts2 ++ s)) := by
    intro h
    have hpre := List.isPrefixOf_iff_prefix.mp h
    have hpre2 : ('{' :: ts2) <+: ('{' :: (ts2 ++ s)) := ⟨s, by simp⟩
    by_cases hlen : ('{' :: ts).length ≤ ('{' :: ts2).length
    · exact token_not_prefix _ ht _ ht2 (fun h0 => hne h0.symm)
        (List.prefix_of_prefix_length_le hpre hpre2 hlen)
    · exact token_not_prefix _ ht2 _ ht hne
        (List.prefix_of_prefix_length_le hpre2 hpre (by omega))
  rw [if_neg hnp]
  have := replace_chunk_pass ts v ts2 s htl2
  show '{' :: replaceCoreFuel '{' ts v (ts2 ++ s).length (ts2 ++ s) = _
  rw [show replaceCoreFuel '{' ts v (ts2 ++ s).length (ts2 ++ s) =
      rust_replace (ts2 ++ s) ('{' :: ts) v from rfl, this]
  rfl

theorem replace_flatten (t v : List Char) (ht : t ∈ tokenList) :
    ∀ r : List TplPart, RepOk r →
      rust_replace (flattenParts r) t v = flattenParts (r.map (subPart t v)) := by
  obtain ⟨hh, _⟩ := token_shape t ht
  obtain ⟨ts, hts⟩ : ∃ ts, t = '{' :: ts := by
    cases t with
    | nil => simp at hh
    | cons c cs => simp at hh; exact ⟨cs, by rw [hh]⟩
  intro r
  induction r with
  | nil =>
    intro _
    subst hts
    rfl
  | cons part r' ih =>
    intro hok
    have hpart := hok part (List.mem_cons_self part r')
    have hok' : RepOk r' := fun p hp => hok p (List.mem_cons_of_mem part hp)
    cases part with
    | chunk c =>
      rw [flattenParts_cons, List.map_cons, flattenParts_cons]
      show rust_replace (c ++ flattenParts r') t v = c ++ flattenParts (r'.map (subPart t v))
      rw [hts] at ih ⊢
      rw [replace_chunk_pass ts v c (flattenParts r') hpart, ih hok']
    | token t2 =>
      by_cases h2 : t2 = t
      · subst h2
        rw [flattenParts_cons, List.map_cons, flattenParts_cons]
        show rust_replace (t2 ++ flattenParts r') t2 v = _
        rw [hts] at ih ⊢
        rw [replace_token_hit ts v (flattenParts r'), ih hok']
        simp [subPart, TplPart.flat]
      · rw [flattenParts_cons, List.map_cons, flattenParts_cons]
        show rust_replace (t2 ++ flattenParts r') t v = _
        rw [replace_token_miss t t2 v ht hpart h2 (flattenParts r'), ih hok']
        simp [subPart, h2, TplPart.flat]

theorem repOk_map_sub (t v : List Char) (hv : ('{' : Char) ∉ v)
    {r : List TplPart} (h : RepOk r) : RepOk (r.map (subPart t v)) := by
  intro part hpart
  rw [List.mem_map] at hpart
  obtain ⟨p0, hp0, hpe⟩ := hpart
  have := h p0 hp0
  subst hpe
  cases p0 with
  | chunk c => exact this
  | token t2 =>
    by_cases h2 : t2 = t
    · simpa [subPart, h2] using hv
    · simpa [subPart, h2] using this

theorem subPart_comm (t v t2 v2 : List Char) (hne : t ≠ t2) (e : TplPart) :
    subPart t v (subPart t2 v2 e) = subPart t2 v2 (subPart t v e) := by
  cases e with
  | chunk c => rfl
  | token t3 =>
    by_cases h2 : t3 = t2 <;> by_cases h1 : t3 = t
    · exact absurd (h1.symm.trans h2) hne
    · subst h2
      simp [subPart, h1]
    · subst h1
      simp [subPart, h2]
    · simp [subPart, h1, h2]

theorem applySubsts_flatten :
    ∀ (l : List (List Char × List Char)) (r : List TplPart), RepOk r →
      (∀ p ∈ l, p.1 ∈ tokenList ∧ ('{' : Char) ∉ p.2) →
      applySubsts (flattenParts r) l = flattenParts (repFold r l) := by
  intro l
  induction l with
  | nil => intro r _ _; rfl
  | cons p l' ih =>
    intro r hok hl
    have hp := hl p (List.mem_cons_self p l')
    have hl' : ∀ q ∈ l', q.1 ∈ tokenList ∧ ('{' : Char) ∉ q.2 :=
      fun q hq => hl q (List.mem_cons_of_mem p hq)
    show applySubsts (rust_replace (flattenParts r) p.1 p.2) l' = _
    rw [replace_flatten p.1 p.2 hp.1 r hok]
    exact ih (r.map (subPart p.1 p.2)) (repOk_map_sub p.1 p.2 hp.2 hok) hl'

theorem digitChar_ne_brace (d : Nat) (h : d < 10) : digitChar d ≠ '{' := by
  interval_cases d <;> decide

theorem natCharsFuel_no_brace : ∀ (fuel n : Nat), ('{' : Char) ∉ natCharsFuel fuel n := by
  intro fuel
  induction fuel with
  | zero => intro n; simp [natCharsFuel]
  | succ m ih =>
    intro n
    by_cases h : n < 10
    · simp only [natCharsFuel, if_pos h, List.mem_singleton]
      exact fun h0 => digitChar_ne_brace n h h0.symm
    · simp only [natCharsFuel, if_neg h, List.mem_append, List.mem_singleton]
      rintro (h0 | h0)
      · exact ih (n / 10) h0
      · exact digitChar_ne_brace (n % 10) (Nat.mod_lt n (by omega)) h0.symm

theorem natChars_no_brace (n : Nat) : ('{' : Char) ∉ natChars n :=
  natCharsFuel_no_brace (n + 1) n

theorem substPairs_tokens (cy cx : Nat) (args : List Char)
    (sel : Option (Nat × Nat)) (hargs : ('{' : Char) ∉ args) :
    ∀ p ∈ substPairs cy cx args sel, p.1 ∈ tokenList ∧ ('{' : Char) ∉ p.2 := by
  intro p hp
  simp only [substPairs, List.mem_cons, List.not_mem_nil, or_false] at hp
  rcases hp with rfl | rfl | rfl | rfl | rfl | rfl | rfl
  · exact ⟨(by decide : tokLine ∈ tokenList), natChars_no_brace _⟩
  · exact ⟨(by decide : tokCol ∈ tokenList), natChars_no_brace _⟩
  · exact ⟨(by decide : tokArgs ∈ tokenList), hargs⟩
  · exact ⟨(by decide : tokStartLine ∈ tokenList), natChars_no_brace _⟩
  · exact ⟨(by decide : tokStartCol ∈ tokenList), natChars_no_brace _⟩
  · exact ⟨(by decide : tokEndLine ∈ tokenList), natChars_no_brace _⟩
  · exact ⟨(by decide : tokEndCol ∈ tokenList), natChars_no_brace _⟩

theorem fst_inj_of_nodup {α β : Type} {l : List (α × β)}
    (h : (l.map Prod.fst).Nodup) :
    ∀ p ∈ l, ∀ q ∈ l, p.1 = q.1 → p = q := by
  induction l with
  | nil => intro p hp; cases hp
  | cons a l ih =>
    rw [List.map_cons, List.nodup_cons] at h
    intro p hp q hq hpq
    rcases List.mem_cons.mp hp with rfl | hp2 <;> rcases List.mem_cons.mp hq with rfl | hq2
    · rfl
    · exact absurd (hpq ▸ List.mem_map_of_mem Prod.fst hq2) h.1
    · exact absurd (hpq ▸ List.mem_map_of_mem Prod.fst hp2) h.1
    · exact ih h.2 p hp2 q hq2 hpq

theorem substPairs_fst_inj (cy cx : Nat) (args : List Char)
    (sel : Option (Nat × Nat)) :
    ∀ p ∈ substPairs cy cx args sel, ∀ q ∈ substPairs cy cx args sel,
      p.1 = q.1 → p = q := by
  apply fst_inj_of_nodup
  show ([tokLine, tokCol, tokArgs, tokStartLine, tokStartCol, tokEndLine,
    tokEndCol] : List (List Char)).Nodup
  decide

/-- Claim C6 counterexample: with template `"{args}"`, cursor `(0,0)`, no
selection and args `"{line}"`, applying the seven substitutions in reverse
order yields `"1"` while the implementation's fixed order yields
`"{line}"` — substitution is not order-independent as claimed. -/
theorem subst_order_cex :
    applySubsts "{args}".data ((substPairs 0 0 "{line}".data none).reverse) ≠
      applySubsts "{args}".data (substPairs 0 0 "{line}".data none) := by
  decide

/-- Claim C6 (amended): placeholder substitution is order-independent on
every template representable as chunks without `'{'` interleaved with whole
placeholder tokens (i.e. each `'{'` of the template opens a placeholder
occurrence), provided the args value contains no `'{'`: then applying the
seven substitution pairs in any permuted order produces the same string as
the implementation's fixed order. (Unrestricted the claim fails, see
the counterexample above: the args value may inject a token that earlier orders
rewrite and later orders do not.) -/
theorem subst_order_independent (cy cx : Nat) (args : List Char)
    (sel : Option (Nat × Nat)) (r : List TplPart) (hr : RepOk r)
    (perm : List (List Char × List Char))
    (hperm : perm.Perm (substPairs cy cx args sel))
    (hargs : ('{' : Char) ∉ args) :
    applySubsts (flattenParts r) perm =
      applySubsts (flattenParts r) (substPairs cy cx args sel) := by
  have hall : ∀ p ∈ substPairs cy cx args sel, p.1 ∈ tokenList ∧ ('{' : Char) ∉ p.2 :=
    substPairs_tokens cy cx args sel hargs
  have hallp : ∀ p ∈ perm, p.1 ∈ tokenList ∧ ('{' : Char) ∉ p.2 :=
    fun p hp => hall p (hperm.mem_iff.mp hp)
  rw [applySubsts_flatten perm r hr hallp,
    applySubsts_flatten (substPairs cy cx args sel) r hr hall]
  show flattenParts (perm.foldl (fun acc p => acc.map (subPart p.1 p.2)) r) = _
  congr 1
  apply List.Perm.foldl_eq' hperm
  intro x hx y hy z
  by_cases hxy : x.1 = y.1
  · have := substPairs_fst_inj cy cx args sel x (hperm.mem_iff.mp hx) y
      (hperm.mem_iff.mp hy) hxy
    rw [this]
  · rw [List.map_map, List.map_map]
    congr 1
    funext e
    exact subPart_comm y.1 y.2 x.1 x.2 (fun h => hxy h.symm) e

/-- Witness for `subst_order_independent`: for the spec's example template
`"echo {line} {col} {args}"` (represented as chunks and tokens), the
reversed substitution order gives the same result as the fixed order. -/
theorem subst_order_independent_witness :
    RepOk [TplPart.chunk "echo ".data, TplPart.token tokLine,
      TplPart.chunk " ".data, TplPart.token tokCol, TplPart.chunk " ".data,
      TplPart.token tokArgs] ∧
    ((substPairs 0 0 "hello".data none).reverse).Perm (substPairs 0 0 "hello".data none) ∧
    ('{' : Char) ∉ "hello".data ∧
    applySubsts
        (flattenParts [TplPart.chunk "echo ".data, TplPart.token tokLine,
          TplPart.chunk " ".data, TplPart.token tokCol, TplPart.chunk " ".data,
          TplPart.token tokArgs])
        ((substPairs 0 0 "hello".data none).reverse) =
      applySubsts
        (flattenParts [TplPart.chunk "echo ".data, TplPart.token tokLine,
          TplPart.chunk " ".data, TplPart.token tokCol, TplPart.chunk " ".data,
          TplPart.token tokArgs])
        (substPairs 0 0 "hello".data none) :=
  ⟨by decide, by decide, by decide,
    subst_order_independent 0 0 "hello".data none
      [TplPart.chunk "echo ".data, TplPart.token tokLine, TplPart.chunk " ".data,
        TplPart.token tokCol, TplPart.chunk " ".data, TplPart.token tokArgs]
      (by decide) ((substPairs 0 0 "hello".data none).reverse) (by decide) (by decide)⟩

/-! ### The clamp invariant (claim C1) -/

theorem U16_eq : U16 = 65536 := rfl

theorem wadd_eq {a b : Nat} (h : a + b < U16) : wadd a b = a + b :=
  Nat.mod_eq_of_lt h

theorem wsub_eq {a b : Nat} (ha : a < U16) (hb : b < U16) (h : b ≤ a) :
    wsub a b = a - b := by
  unfold wsub
  rw [Nat.mod_eq_of_lt ha, Nat.mod_eq_of_lt hb]
  have h2 : a + (U16 - b) = (a - b) + U16 := by
    have := U16_eq
    omega
  rw [h2, Nat.add_mod_right]
  exact Nat.mod_eq_of_lt (by have := U16_eq; omega)

/-- After `ensure_visible` the cursor row is inside the viewport, provided
the height is positive, the arithmetic does not truncate, the cursor row is
in bounds and the incoming scroll is at most the last row. -/
theorem ensure_visible_scroll (a : App) (height : Nat)
    (hh : 1 ≤ height) (hU : composedLen a + height ≤ U16)
    (hcy : a.cursor_y < composedLen a)
    (hs : a.scroll ≤ composedLen a - 1) :
    (a.ensure_visible height).scroll ≤ a.cursor_y ∧
    a.cursor_y < (a.ensure_visible height).scroll + height := by
  have hU16 := U16_eq
  have hLpos : 1 ≤ composedLen a := by omega
  have hcyU : a.cursor_y % U16 = a.cursor_y := Nat.mod_eq_of_lt (by omega)
  have hsU : a.scroll + height < U16 := by omega
  have hgoal : (a.ensure_visible height).scroll =
      if a.cursor_y % U16 <
          (if wadd a.scroll height ≤ a.cursor_y % U16 then
            wadd (wsub (a.cursor_y % U16) height) 1 else a.scroll) then
        a.cursor_y % U16
      else
        (if wadd a.scroll height ≤ a.cursor_y % U16 then
          wadd (wsub (a.cursor_y % U16) height) 1 else a.scroll) := rfl
  rw [hgoal, hcyU, wadd_eq hsU]
  by_cases hcase : a.scroll + height ≤ a.cursor_y
  · rw [if_pos hcase]
    have hwsub : wsub a.cursor_y height = a.cursor_y - height :=
      wsub_eq (by omega) (by omega) (by omega)
    rw [hwsub, wadd_eq (by omega)]
    rw [if_neg (by omega)]
    constructor <;> omega
  · rw [if_neg hcase]
    by_cases hlow : a.cursor_y < a.scroll
    · rw [if_pos hlow]
      constructor <;> omega
    · rw [if_neg hlow]
      constructor <;> omega

/-- Master lemma: `ensure_visible` restores the full invariant from a state
whose cursor is valid and whose scroll does not exceed the last row. -/
theorem stateOK_ensure (a : App) (height : Nat)
    (hdoc : DocOK height a) (hcur : CursorOK a)
    (hs : a.scroll ≤ composedLen a - 1) (hhits : HitsOK a) :
    StateOK height (a.ensure_visible height) := by
  obtain ⟨hh, hL, hU⟩ := hdoc
  obtain ⟨hes1, hes2⟩ := ensure_visible_scroll a height hh hU hcur.2 hs
  refine ⟨⟨hh, hL, hU⟩, hcur, ⟨hes1, hes2, ?_⟩, hhits⟩
  have hLe : composedLen (a.ensure_visible height) = composedLen a := rfl
  have hcy2 := hcur.2
  rw [hLe]
  omega

/-- A cursor jump to a valid position followed by `ensure_visible`
preserves the invariant (also covering the no-op case). -/
theorem stateOK_of_jump (height : Nat) (a b : App) (h : StateOK height a)
    (hs : JumpShape a b ∨ b = a) :
    StateOK height (b.ensure_visible height) := by
  obtain ⟨hd, hc, hv, hhits⟩ := h
  rcases hs with ⟨y, x, hb, hy, hx⟩ | hb
  · subst hb
    exact stateOK_ensure _ height hd ⟨hx, hy⟩ hv.2.2 hhits
  · subst hb
    exact stateOK_ensure _ height hd hc hv.2.2 hhits

theorem skipInLineBack_le (pred : Byte → Bool) (bytes : List Byte) :
    ∀ x, skipInLineBack pred bytes x ≤ x := by
  intro x
  induction x with
  | zero => exact le_rfl
  | succ n ih =>
    unfold skipInLineBack
    split
    · omega
    · exact le_rfl

theorem skip_backward_bounds (pred : Byte → Bool) (lines : List (List Byte))
    (hL : 1 ≤ lines.length) :
    ∀ y x, y < lines.length → x ≤ (lines.getD y []).length →
      (skip_backward pred lines y x).1 < lines.length ∧
      (skip_backward pred lines y x).2 ≤
        (lines.getD (skip_backward pred lines y x).1 []).length := by
  intro y
  induction y with
  | zero =>
    intro x hy hx
    by_cases hx0 : x = 0
    · subst hx0
      simp only [skip_backward, if_pos rfl]
      exact ⟨hL, by simp⟩
    · simp only [skip_backward, if_neg hx0]
      exact ⟨hL, le_trans (skipInLineBack_le pred _ x) hx⟩
  | succ n ih =>
    intro x hy hx
    by_cases hx0 : x = 0
    · subst hx0
      simp only [skip_backward, if_pos rfl, if_true, eq_self_iff_true]
      by_cases hlen : (lines.getD n []).length = 0
      · rw [if_pos hlen]
        exact ih 0 (by omega) (by omega)
      · rw [if_neg hlen]
        exact ⟨by omega, skipInLineBack_le pred _ _⟩
    · simp only [skip_backward, if_neg hx0]
      exact ⟨hy, le_trans (skipInLineBack_le pred _ x) hx⟩

theorem enum_fst_lt {α : Type} (l : List α) (p : Nat × α) (hp : p ∈ l.enum) :
    p.1 < l.length := by
  obtain ⟨i, x⟩ := p
  exact (List.mem_enum hp).1

theorem hits_getD_valid (a : App) (hhits : HitsOK a) (hL : 1 ≤ composedLen a)
    (k : Nat) :
    (a.search_hits.getD k (0, 0)).1 < composedLen a ∧
    (a.search_hits.getD k (0, 0)).2 ≤
      (a.display_lines.getD (a.search_hits.getD k (0, 0)).1 []).length := by
  by_cases hk : k < a.search_hits.length
  · rw [List.getD_eq_getElem _ _ hk]
    exact hhits _ (List.getElem_mem hk)
  · rw [List.getD_eq_default _ _ (by omega)]
    exact ⟨hL, by simp⟩

theorem getD_valid_of_all {L : Nat} {lines : List (List Byte)}
    (hits : List (Nat × Nat))
    (hall : ∀ p ∈ hits, p.1 < L ∧ p.2 ≤ (lines.getD p.1 []).length)
    (hL : 1 ≤ L) (k : Nat) :
    (hits.getD k (0, 0)).1 < L ∧
    (hits.getD k (0, 0)).2 ≤ (lines.getD (hits.getD k (0, 0)).1 []).length := by
  by_cases hk : k < hits.length
  · rw [List.getD_eq_getElem _ _ hk]
    exact hall _ (List.getElem_mem hk)
  · rw [List.getD_eq_default _ _ (by omega)]
    exact ⟨hL, by simp⟩

/-- The column clamp `if len < cursor_x then len else cursor_x` stays in
bounds. -/
theorem clamp_le (a : App) (y : Nat) :
    (if a.line_len y < a.cursor_x then a.line_len y else a.cursor_x) ≤
      (a.display_lines.getD y []).length := by
  have hrfl : a.line_len y = (a.display_lines.getD y []).length := rfl
  by_cases hx : a.line_len y < a.cursor_x
  · rw [if_pos hx]; omega
  · rw [if_neg hx]; omega

/-! Shape lemmas: each independently-targeted motion only moves the cursor,
to a valid position. -/

theorem goto_first_shape (a : App) (hL : 1 ≤ composedLen a) :
    JumpShape a a.goto_first_line :=
  ⟨0, 0, rfl, by omega, by simp⟩

theorem goto_last_shape (a : App) (hL : 1 ≤ composedLen a) :
    JumpShape a a.goto_last_line := by
  refine ⟨a.display_lines.length - 1, 0, ?_, ?_, by simp⟩
  · unfold App.goto_last_line
    rw [if_neg ?_]
    intro hempty
    rw [List.isEmpty_eq_true] at hempty
    have : composedLen a = a.display_lines.length := rfl
    rw [this, hempty] at hL
    simp at hL
  · have : composedLen a = a.display_lines.length := rfl
    omega

theorem cursor_top_shape (a : App) (hL : 1 ≤ composedLen a)
    (hs : a.scroll ≤ composedLen a - 1) :
    JumpShape a a.cursor_top :=
  ⟨a.scroll, if a.line_len a.scroll < a.cursor_x then a.line_len a.scroll
    else a.cursor_x, rfl, by omega, clamp_le a a.scroll⟩

theorem cursor_middle_shape (a : App) (height : Nat) (hd : DocOK height a) :
    JumpShape a (a.cursor_middle height) := by
  obtain ⟨hh, hL, hU⟩ := hd
  have hU16 := U16_eq
  have hLen : composedLen a = a.display_lines.length := rfl
  have hLU : a.display_lines.length % U16 = a.display_lines.length :=
    Nat.mod_eq_of_lt (by omega)
  have hwsub : wsub (a.display_lines.length % U16) 1 = a.display_lines.length - 1 := by
    rw [hLU]
    exact wsub_eq (by omega) (by omega) (by omega)
  refine ⟨min (wadd a.scroll (height / 2)) (wsub (a.display_lines.length % U16) 1),
    _, rfl, ?_, clamp_le a _⟩
  have hmin : min (wadd a.scroll (height / 2)) (wsub (a.display_lines.length % U16) 1) ≤
      a.display_lines.length - 1 := by
    rw [hwsub] at *
    exact min_le_right _ _
  omega

theorem cursor_bottom_shape (a : App) (height : Nat) (hd : DocOK height a) :
    JumpShape a (a.cursor_bottom height) := by
  obtain ⟨hh, hL, hU⟩ := hd
  have hU16 := U16_eq
  have hLen : composedLen a = a.display_lines.length := rfl
  have hLU : a.display_lines.length % U16 = a.display_lines.length :=
    Nat.mod_eq_of_lt (by omega)
  have hwsub : wsub (a.display_lines.length % U16) 1 = a.display_lines.length - 1 := by
    rw [hLU]
    exact wsub_eq (by omega) (by omega) (by omega)
  refine ⟨min (wsub (wadd a.scroll height) 1) (wsub (a.display_lines.length % U16) 1),
    _, rfl, ?_, clamp_le a _⟩
  have hmin : min (wsub (wadd a.scroll height) 1) (wsub (a.display_lines.length % U16) 1) ≤
      a.display_lines.length - 1 := by
    rw [hwsub] at *
    exact min_le_right _ _
  omega

theorem move_word_forward_shape (a : App) (hL : 1 ≤ composedLen a) :
    JumpShape a a.move_word_forward := by
  have hLen : composedLen a = a.display_lines.length := rfl
  refine ⟨min (wordForwardTarget a).1 (a.display_lines.length - 1),
    min (wordForwardTarget a).2
      (a.line_len (min (wordForwardTarget a).1 (a.display_lines.length - 1))),
    rfl, ?_, ?_⟩
  · have := min_le_right (wordForwardTarget a).1 (a.display_lines.length - 1)
    omega
  · exact min_le_right _ _

theorem wordBackwardTarget_bounds (a : App) (hL : 1 ≤ composedLen a)
    (hc : CursorOK a) :
    (wordBackwardTarget a).1 < composedLen a ∧
    (wordBackwardTarget a).2 ≤
      (a.display_lines.getD (wordBackwardTarget a).1 []).length := by
  have hLen : composedLen a = a.display_lines.length := rfl
  have hp1 := skip_backward_bounds is_ascii_ws a.display_lines (by omega)
    a.cursor_y a.cursor_x (by have := hc.2; omega) hc.1
  unfold wordBackwardTarget
  dsimp only
  cases hcb : a.char_before
      (skip_backward is_ascii_ws a.display_lines a.cursor_y a.cursor_x).1
      (skip_backward is_ascii_ws a.display_lines a.cursor_y a.cursor_x).2 with
  | none =>
    simp only [hcb]
    exact ⟨by omega, hp1.2⟩
  | some c =>
    simp only [hcb]
    by_cases hkw : is_keyword c
    · rw [if_pos hkw]
      have := skip_backward_bounds is_keyword a.display_lines (by omega)
        _ _ (by have := hp1.1; omega) hp1.2
      exact ⟨by omega, this.2⟩
    · rw [if_neg hkw]
      have := skip_backward_bounds (fun b => !is_keyword b && !is_ascii_ws b)
        a.display_lines (by omega) _ _ (by have := hp1.1; omega) hp1.2
      exact ⟨by omega, this.2⟩

theorem move_word_backward_shape (a : App) (hL : 1 ≤ composedLen a)
    (hc : CursorOK a) :
    JumpShape a a.move_word_backward ∨ a.move_word_backward = a := by
  unfold App.move_word_backward
  by_cases h0 : a.cursor_y = 0 ∧ a.cursor_x = 0
  · rw [if_pos h0]
    exact Or.inr rfl
  · rw [if_neg h0]
    obtain ⟨h1, h2⟩ := wordBackwardTarget_bounds a hL hc
    exact Or.inl ⟨_, _, rfl, h1, h2⟩

theorem move_paragraph_down_shape (a : App) (hL : 1 ≤ composedLen a) :
    JumpShape a a.move_paragraph_down := by
  have hLen : composedLen a = a.display_lines.length := rfl
  unfold App.move_paragraph_down
  dsimp only
  cases hf : (a.display_lines.enum.drop (a.cursor_y + 1)).find?
      (fun p => trimIsEmpty p.2) with
  | none =>
    simp only [hf]
    exact ⟨a.display_lines.length - 1, 0, rfl, by omega, by simp⟩
  | some p =>
    simp only [hf]
    have hmem := enum_fst_lt a.display_lines p
      (List.mem_of_mem_drop (List.mem_of_find?_eq_some hf))
    exact ⟨p.1, 0, rfl, by omega, by simp⟩

theorem move_paragraph_up_shape (a : App) (hL : 1 ≤ composedLen a) :
    JumpShape a a.move_paragraph_up ∨ a.move_paragraph_up = a := by
  have hLen : composedLen a = a.display_lines.length := rfl
  unfold App.move_paragraph_up
  by_cases h0 : a.cursor_y = 0
  · rw [if_pos h0]
    exact Or.inr rfl
  · rw [if_neg h0]
    dsimp only
    cases hf : ((a.display_lines.enum.take a.cursor_y).reverse).find?
        (fun p => trimIsEmpty p.2) with
    | none =>
      simp only [hf]
      exact Or.inl ⟨0, 0, rfl, by omega, by simp⟩
    | some p =>
      simp only [hf]
      have hmem := enum_fst_lt a.display_lines p
        (List.mem_of_mem_take (List.mem_reverse.mp (List.mem_of_find?_eq_some hf)))
      exact Or.inl ⟨p.1, 0, rfl, by omega, by simp⟩

/-! Single-step motions preserve the invariant directly. -/

theorem stateOK_mk (height : Nat) (a : App) (y x s : Nat)
    (hd : DocOK height a) (hy : y < composedLen a)
    (hx : x ≤ (a.display_lines.getD y []).length)
    (hs1 : s ≤ y) (hs2 : y < s + height) (hs3 : s ≤ composedLen a - 1)
    (hhits : HitsOK a) :
    StateOK height ({ a with cursor_y := y, cursor_x := x, scroll := s } : App) :=
  ⟨hd, ⟨hx, hy⟩, ⟨hs1, hs2, hs3⟩, hhits⟩

theorem move_left_ok (height : Nat) (a : App) (h : StateOK height a) :
    StateOK height a.move_left := by
  obtain ⟨hd, hc, hv, hhits⟩ := h
  unfold App.move_left
  by_cases h1 : 0 < a.cursor_x
  · rw [if_pos h1]
    exact ⟨hd, ⟨le_trans (Nat.sub_le _ _) hc.1, hc.2⟩, hv, hhits⟩
  · rw [if_neg h1]
    exact ⟨hd, hc, hv, hhits⟩

theorem move_right_ok (height : Nat) (a : App) (h : StateOK height a) :
    StateOK height a.move_right := by
  obtain ⟨hd, hc, hv, hhits⟩ := h
  unfold App.move_right
  by_cases h1 : a.cursor_x < a.line_len a.cursor_y
  · rw [if_pos h1]
    exact ⟨hd, ⟨h1, hc.2⟩, hv, hhits⟩
  · rw [if_neg h1]
    exact ⟨hd, hc, hv, hhits⟩

theorem move_down_ok (height : Nat) (a : App) (h : StateOK height a) :
    StateOK height (a.move_down height) := by
  obtain ⟨⟨hh1, hL, hU⟩, ⟨hc1, hc2⟩, ⟨hv1, hv2, hv3⟩, hhits⟩ := h
  have hU16 := U16_eq
  have hLen : composedLen a = a.display_lines.length := rfl
  unfold App.move_down
  by_cases hcond : a.cursor_y + 1 < a.display_lines.length
  · rw [if_pos hcond]
    dsimp only
    have hcyU : (a.cursor_y + 1) % U16 = a.cursor_y + 1 := Nat.mod_eq_of_lt (by omega)
    have hwa : wadd a.scroll height = a.scroll + height := wadd_eq (by omega)
    rw [hcyU, hwa]
    by_cases hsc : a.scroll + height ≤ a.cursor_y + 1
    · rw [if_pos hsc]
      have hws : wsub (a.cursor_y + 1) height = a.cursor_y + 1 - height :=
        wsub_eq (by omega) (by omega) (by omega)
      rw [hws, wadd_eq (by omega)]
      exact stateOK_mk height a _ _ _ ⟨hh1, hL, hU⟩ (by omega) (clamp_le a _)
        (by omega) (by omega) (by omega) hhits
    · rw [if_neg hsc]
      exact stateOK_mk height a _ _ _ ⟨hh1, hL, hU⟩ (by omega) (clamp_le a _)
        (by omega) (by omega) (by omega) hhits
  · rw [if_neg hcond]
    exact ⟨⟨hh1, hL, hU⟩, ⟨hc1, hc2⟩, ⟨hv1, hv2, hv3⟩, hhits⟩

theorem move_up_ok (height : Nat) (a : App) (h : StateOK height a) :
    StateOK height a.move_up := by
  obtain ⟨⟨hh1, hL, hU⟩, ⟨hc1, hc2⟩, ⟨hv1, hv2, hv3⟩, hhits⟩ := h
  have hU16 := U16_eq
  have hLen : composedLen a = a.display_lines.length := rfl
  unfold App.move_up
  by_cases hcond : 0 < a.cursor_y
  · rw [if_pos hcond]
    dsimp only
    have hcyU : (a.cursor_y - 1) % U16 = a.cursor_y - 1 := Nat.mod_eq_of_lt (by omega)
    rw [hcyU]
    by_cases hsc : a.cursor_y - 1 < a.scroll
    · rw [if_pos hsc]
      exact stateOK_mk height a _ _ _ ⟨hh1, hL, hU⟩ (by omega) (clamp_le a _)
        (by omega) (by omega) (by omega) hhits
    · rw [if_neg hsc]
      exact stateOK_mk height a _ _ _ ⟨hh1, hL, hU⟩ (by omega) (clamp_le a _)
        (by omega) (by omega) (by omega) hhits
  · rw [if_neg hcond]
    exact ⟨⟨hh1, hL, hU⟩, ⟨hc1, hc2⟩, ⟨hv1, hv2, hv3⟩, hhits⟩

theorem foldl_preserves {α β : Type} (P : α → Prop) (g : α → β → α)
    (hg : ∀ x b, P x → P (g x b)) :
    ∀ (l : List β) (x : α), P x → P (l.foldl g x) := by
  intro l
  induction l with
  | nil => intro x hx; exact hx
  | cons b l ih => intro x hx; exact ih _ (hg x b hx)

theorem half_page_down_ok (height : Nat) (a : App) (h : StateOK height a) :
    StateOK height (a.half_page_down height) :=
  foldl_preserves (StateOK height) _ (fun x _ hx => move_down_ok height x hx)
    (List.range (height / 2)) a h

theorem half_page_up_ok (height : Nat) (a : App) (h : StateOK height a) :
    StateOK height (a.half_page_up height) :=
  foldl_preserves (StateOK height) _ (fun x _ hx => move_up_ok height x hx)
    (List.range (height / 2)) a h

theorem next_hit_ok (height : Nat) (a : App) (h : StateOK height a) :
    StateOK height (a.next_hit height) := by
  obtain ⟨hd, hc, hv, hhits⟩ := h
  unfold App.next_hit
  by_cases he : a.search_hits.isEmpty
  · rw [if_pos he]
    exact ⟨hd, hc, hv, hhits⟩
  · rw [if_neg he]
    dsimp only
    apply stateOK_ensure
    · exact hd
    · exact ⟨(hits_getD_valid a hhits hd.2.1 _).2, (hits_getD_valid a hhits hd.2.1 _).1⟩
    · exact hv.2.2
    · exact hhits

theorem prev_hit_ok (height : Nat) (a : App) (h : StateOK height a) :
    StateOK height (a.prev_hit height) := by
  obtain ⟨hd, hc, hv, hhits⟩ := h
  unfold App.prev_hit
  by_cases he : a.search_hits.isEmpty
  · rw [if_pos he]
    exact ⟨hd, hc, hv, hhits⟩
  · rw [if_neg he]
    dsimp only
    apply stateOK_ensure
    · exact hd
    · exact ⟨(hits_getD_valid a hhits hd.2.1 _).2, (hits_getD_valid a hhits hd.2.1 _).1⟩
    · exact hv.2.2
    · exact hhits

theorem set_search_query_pre (height : Nat) (a : App) (q : List Byte)
    (h : StateOK height a) :
    DocOK height (a.set_search_query q) ∧ CursorOK (a.set_search_query q) ∧
    (a.set_search_query q).scroll ≤ composedLen (a.set_search_query q) - 1 ∧
    HitsOK (a.set_search_query q) := by
  obtain ⟨hd, hc, hv, hhits⟩ := h
  unfold App.set_search_query
  by_cases hqe : q.isEmpty
  · rw [if_pos hqe]
    exact ⟨hd, hc, hv.2.2, fun p hp => absurd hp (List.not_mem_nil p)⟩
  · rw [if_neg hqe]
    dsimp only
    have hq : q ≠ [] := by
      intro h0
      subst h0
      exact hqe rfl
    have hall : ∀ p ∈ scanHits a.display_lines q,
        p.1 < composedLen a ∧ p.2 ≤ (a.display_lines.getD p.1 []).length := by
      intro p hp
      obtain ⟨h1, h2, _⟩ := (scanHits_props a.display_lines q hq).2 p hp
      exact ⟨h1, by omega⟩
    by_cases hhe : (scanHits a.display_lines q).isEmpty
    · rw [if_pos hhe]
      exact ⟨hd, hc, hv.2.2, hall⟩
    · rw [if_neg hhe]
      dsimp only
      have hg := getD_valid_of_all (scanHits a.display_lines q) hall hd.2.1 0
      exact ⟨hd, ⟨hg.2, hg.1⟩, hv.2.2, hall⟩

theorem dispatch_preserves (i : Intent) (height : Nat) (a : App)
    (h : StateOK height a) : StateOK height (dispatch i height a) := by
  cases i with
  | MoveLeft => exact move_left_ok height a h
  | MoveDown => exact move_down_ok height a h
  | MoveUp => exact move_up_ok height a h
  | MoveRight => exact move_right_ok height a h
  | MoveWordForward =>
    exact stateOK_of_jump height a _ h (Or.inl (move_word_forward_shape a h.1.2.1))
  | MoveWordBackward =>
    exact stateOK_of_jump height a _ h (move_word_backward_shape a h.1.2.1 h.2.1)
  | MoveParagraphUp =>
    exact stateOK_of_jump height a _ h (move_paragraph_up_shape a h.1.2.1)
  | MoveParagraphDown =>
    exact stateOK_of_jump height a _ h (Or.inl (move_paragraph_down_shape a h.1.2.1))
  | HalfPageUp => exact half_page_up_ok height a h
  | HalfPageDown => exact half_page_down_ok height a h
  | CursorTop =>
    exact stateOK_of_jump height a _ h (Or.inl (cursor_top_shape a h.1.2.1 h.2.2.1.2.2))
  | CursorMiddle =>
    exact stateOK_of_jump height a _ h (Or.inl (cursor_middle_shape a height h.1))
  | CursorBottom =>
    exact stateOK_of_jump height a _ h (Or.inl (cursor_bottom_shape a height h.1))
  | GotoFirstLine =>
    exact stateOK_of_jump height a _ h (Or.inl (goto_first_shape a h.1.2.1))
  | GotoLastLine =>
    exact stateOK_of_jump height a _ h (Or.inl (goto_last_shape a h.1.2.1))
  | NextHit => exact next_hit_ok height a h
  | PrevHit => exact prev_hit_ok height a h
  | SearchSubmit q =>
    obtain ⟨hd2, hc2, hs2, hh2⟩ := set_search_query_pre height a q h
    exact stateOK_ensure _ height hd2 hc2 hs2 hh2
  | ClearSearch =>
    obtain ⟨hd, hc, hv, hhits⟩ := h
    exact ⟨hd, hc, hv, fun p hp => absurd hp (List.not_mem_nil p)⟩

/-- Claim C1 counterexample: with viewport height 0 (reachable from a
one-row terminal) a single `MoveDown` on a two-line document drives the
scroll to 2, above both the cursor row and the last composed row — the
claimed invariant fails at this concrete input. -/
theorem clamp_invariant_cex :
    ¬ ((runIntents (App.new (strBytes "a\nb")) 0 [Intent.MoveDown]).scroll ≤
        (runIntents (App.new (strBytes "a\nb")) 0 [Intent.MoveDown]).cursor_y ∧
      (runIntents (App.new (strBytes "a\nb")) 0 [Intent.MoveDown]).scroll ≤
        composedLen (runIntents (App.new (strBytes "a\nb")) 0 [Intent.MoveDown]) - 1) := by
  decide

/-- Claim C1 (amended): for every document and overlay list whose composed
view is non-empty, every viewport height `h` with `1 ≤ h` and
`composed_view.len() + h ≤ 2^16` (so the `u16` scroll arithmetic never
truncates), and every sequence of motion intents dispatched as in the event
layer from the freshly-loaded state, after each operation the cursor
satisfies `col ≤ len(row_text)` and `row < composed_view.len()`, and the
viewport satisfies `scroll ≤ row < scroll + h` with
`scroll ≤ composed_view.len() - 1`. (The original claim fails for height 0,
for the empty document — the `cursor_middle`/`cursor_bottom` `u16`
underflow — and for documents with at least `2^16`
rows.) -/
theorem clamp_invariant (doc : Document) (overlays : List OverlayItem)
    (height : Nat) (l : List Intent) (hh : 1 ≤ height)
    (hL : 1 ≤ composedLen (initialApp doc overlays))
    (hU : composedLen (initialApp doc overlays) + height ≤ U16) :
    StateOK height (runIntents (initialApp doc overlays) height l) := by
  have h0 : StateOK height (initialApp doc overlays) := by
    have hcy : (initialApp doc overlays).cursor_y = 0 := rfl
    have hcx : (initialApp doc overlays).cursor_x = 0 := rfl
    have hsc : (initialApp doc overlays).scroll = 0 := rfl
    refine ⟨⟨hh, hL, hU⟩, ⟨?_, ?_⟩, ⟨?_, ?_, ?_⟩,
      fun p hp => absurd hp (List.not_mem_nil p)⟩
    · rw [hcx]; exact Nat.zero_le _
    · rw [hcy]; omega
    · rw [hsc]; exact Nat.zero_le _
    · rw [hsc, hcy]; omega
    · rw [hsc]; exact Nat.zero_le _
  exact foldl_preserves (StateOK height) _
    (fun x i hx => dispatch_preserves i height x hx) l (initialApp doc overlays) h0

/-- Witness for `clamp_invariant`: a concrete two-line document, height 5,
and a three-intent run. -/
theorem clamp_invariant_witness :
    1 ≤ 5 ∧
    1 ≤ composedLen (initialApp (Document.new (strBytes "hello\nworld")) []) ∧
    composedLen (initialApp (Document.new (strBytes "hello\nworld")) []) + 5 ≤ U16 ∧
    StateOK 5 (runIntents (initialApp (Document.new (strBytes "hello\nworld")) []) 5
      [Intent.MoveDown, Intent.MoveWordForward, Intent.CursorBottom]) :=
  ⟨by decide, by decide, by decide,
    clamp_invariant (Document.new (strBytes "hello\nworld")) [] 5
      [Intent.MoveDown, Intent.MoveWordForward, Intent.CursorBottom]
      (by decide) (by decide) (by decide)⟩

end FileViewer

